import Mathlib

/-!
Verification of the esports-tracker worker's scheduler core.

Shallow embedding of the Python sources:
  worker/src/services/activity_scorer.py
  worker/src/services/account_selector.py
  worker/src/services/riot_api.py
  worker/src/services/database.py
  worker/src/jobs/fetch_matches_v2.py

Real-valued arithmetic of the scorer is embedded over ℝ; timestamps and
delays elsewhere over ℚ; machine ints over ℕ/ℤ.  Stateful code is embedded
as explicit state passing.
-/

namespace EsportsTracker

/-! ## Activity scorer (activity_scorer.py) -/

/-- Activity tiers, `determine_tier`'s codomain. -/
inductive Tier where
  | very_active
  | active
  | moderate
  | inactive
deriving DecidableEq, Repr

/-- Embeds `ActivityScorer.calculate_score` (activity_scorer.py lines 28-78).
`last_match_at` and `now` are epoch seconds; the code's
`(now - last_match_at).total_seconds() / 3600` becomes `(now - lm) / 3600`. -/
noncomputable def calculate_score (games_today games_last_3_days games_last_7_days : ℕ)
    (last_match_at : Option ℝ) (now : ℝ) : ℝ :=
  let today_score : ℝ := min ((games_today : ℝ) * 10) 35
  let recent_score : ℝ := min ((games_last_3_days : ℝ) * 2) 20
  let recent_component := today_score + recent_score
  let recency_component : ℝ :=
    match last_match_at with
    | some lm => 30 * Real.exp (-(max 0 ((now - lm) / 3600)) / 12)
    | none => 0
  let trend_component : ℝ :=
    if 0 < games_last_7_days then min ((games_last_7_days : ℝ) / 7 * 3) 15 else 0
  max 0 (min 100 (recent_component + recency_component + trend_component))

/-- Embeds `ActivityScorer.determine_tier` (activity_scorer.py lines 80-96). -/
noncomputable def determine_tier (score : ℝ) : Tier :=
  if 70 ≤ score then .very_active
  else if 40 ≤ score then .active
  else if 20 ≤ score then .moderate
  else .inactive

/-- Embeds `ActivityScorer.apply_empty_fetch_decay` (activity_scorer.py line 98). -/
noncomputable def apply_empty_fetch_decay (current_score : ℝ) : ℝ :=
  max 0 (current_score * (95 / 100))

/-- Embeds `ActivityScorer.apply_match_boost` (activity_scorer.py line 109). -/
noncomputable def apply_match_boost (current_score : ℝ) (new_matches : ℕ) : ℝ :=
  let boost : ℝ := min ((new_matches : ℝ) * 5) 20
  min 100 (current_score + boost)

/-- The score formula exactly as claim C6 words it: the clamp to [0,100] of
min(games_today·10, 35) + min(games_last_3_days·2, 20) + recency + weekly,
with recency = 30·exp(−Δh/12), Δh = max(0, hours since last_match_at),
0 when null, and weekly = min((games_last_7_days/7)·3, 15). -/
noncomputable def claimScore (games_today games_last_3_days games_last_7_days : ℕ)
    (last_match_at : Option ℝ) (now : ℝ) : ℝ :=
  let recency : ℝ :=
    match last_match_at with
    | some lm => 30 * Real.exp (-(max 0 ((now - lm) / 3600)) / 12)
    | none => 0
  let weekly : ℝ := min ((games_last_7_days : ℝ) / 7 * 3) 15
  max 0 (min 100
    (min ((games_today : ℝ) * 10) 35 + min ((games_last_3_days : ℝ) * 2) 20
      + recency + weekly))

/-! ## Account selector configuration and reschedule (account_selector.py) -/

/-- Embeds `AccountSelectorConfig` (account_selector.py lines 55-75),
with its default values. -/
structure AccountSelectorConfig where
  interval_very_active : ℕ := 3
  interval_active : ℕ := 15
  interval_moderate : ℕ := 60
  interval_inactive : ℕ := 240
  max_interval_very_active : ℕ := 5
  max_interval_active : ℕ := 30
  max_interval_moderate : ℕ := 120
  max_interval_inactive : ℕ := 360
  batch_size : ℕ := 10
  max_consecutive_empty : ℕ := 5

/-- The `_base_intervals` map (account_selector.py lines 99-104), in minutes. -/
def baseInterval (cfg : AccountSelectorConfig) : Tier → ℚ
  | .very_active => cfg.interval_very_active
  | .active => cfg.interval_active
  | .moderate => cfg.interval_moderate
  | .inactive => cfg.interval_inactive

/-- The `_max_intervals` map (account_selector.py lines 106-111), in minutes. -/
def maxInterval (cfg : AccountSelectorConfig) : Tier → ℚ
  | .very_active => cfg.max_interval_very_active
  | .active => cfg.max_interval_active
  | .moderate => cfg.max_interval_moderate
  | .inactive => cfg.max_interval_inactive

/-- The interval computation of `AccountSelector.reschedule`
(account_selector.py lines 337-353): exponential backoff factor
`min(2 ** consecutive_empty_fetches, 8)` when the counter is positive,
then clamp to the tier's maximum interval. -/
def backoffInterval (cfg : AccountSelectorConfig) (tier : Tier)
    (consecutive_empty_fetches : ℕ) : ℚ :=
  let base := baseInterval cfg tier
  let maxI := maxInterval cfg tier
  let interval :=
    if 0 < consecutive_empty_fetches then
      base * min ((2 : ℚ) ^ consecutive_empty_fetches) 8
    else base
  if maxI < interval then maxI else interval

/-- The scheduling view of one account, embedding `PrioritizedAccount`
(account_selector.py lines 22-52).  The puuid is abstracted to ℕ;
`next_fetch_at`/`last_fetched_at` are epoch seconds over ℚ, scorer
timestamps over ℝ. -/
structure PrioritizedAccount where
  puuid : ℕ
  activity_score : ℝ
  tier : Tier
  next_fetch_at : ℚ
  last_fetched_at : Option ℚ
  last_match_at : Option ℝ
  consecutive_empty_fetches : ℕ

/-- Fresh activity counters handed to `reschedule` (the `activity_data`
dict read back from the store). -/
structure ActivityData where
  games_today : ℕ
  games_last_3_days : ℕ
  games_last_7_days : ℕ
  last_match_at : Option ℝ

/-- Embeds the field updates of `AccountSelector.reschedule`
(account_selector.py lines 296-356): empty-fetch counter, score
(full recompute / boost / decay), tier, interval, `next_fetch_at`,
`last_fetched_at`.  `scorerNow` is the wall clock the scorer reads,
`now` the wall clock the scheduler reads. -/
noncomputable def rescheduleUpdate (cfg : AccountSelectorConfig)
    (account : PrioritizedAccount) (new_matches : ℕ)
    (activity_data : Option ActivityData) (now : ℚ) (scorerNow : ℝ) :
    PrioritizedAccount :=
  let cef := if 0 < new_matches then 0 else account.consecutive_empty_fetches + 1
  let score :=
    if 0 < new_matches then
      match activity_data with
      | some ad =>
          calculate_score ad.games_today ad.games_last_3_days ad.games_last_7_days
            ad.last_match_at scorerNow
      | none => apply_match_boost account.activity_score new_matches
    else apply_empty_fetch_decay account.activity_score
  let tier := determine_tier score
  let interval := backoffInterval cfg tier cef
  { account with
      consecutive_empty_fetches := cef
      activity_score := score
      tier := tier
      next_fetch_at := now + interval
      last_fetched_at := some now }

/-! ## Start-time selection (fetch_matches_v2.py) -/

/-- `DEFAULT_START_TIME` (fetch_matches_v2.py line 24). -/
def DEFAULT_START_TIME : ℤ := 1735689600

/-- Embeds the start-time selection of `_fetch_account_matches`
(fetch_matches_v2.py lines 277-285): `ts if ts > 1577836800 else
DEFAULT_START_TIME`, with `None` (and the conversion-error path)
falling back to `DEFAULT_START_TIME`. -/
def computeStartTime (last_match_at : Option ℤ) : ℤ :=
  match last_match_at with
  | some ts => if 1577836800 < ts then ts else DEFAULT_START_TIME
  | none => DEFAULT_START_TIME

/-- The start time exactly as claim C2 words it:
`max(last_match_at_epoch, DEFAULT_START_TIME)`, with null mapped to
`DEFAULT_START_TIME`. -/
def claimStartTime (last_match_at : Option ℤ) : ℤ :=
  match last_match_at with
  | some ts => max ts DEFAULT_START_TIME
  | none => DEFAULT_START_TIME

/-! ## Exponential backoff and the 429 retry loop (riot_api.py) -/

/-- `BACKOFF_MAX_RETRIES` (riot_api.py line 22). -/
def BACKOFF_MAX_RETRIES : ℕ := 5

/-- Embeds `calculate_backoff_delay` (riot_api.py lines 25-45).  The call
`random.random()` is abstracted as the parameter `r ∈ [0,1)`, so the
jitter factor is `1.0 - 0.2 + r * 2 * 0.2 = 0.8 + 0.4 r`. -/
def calculate_backoff_delay (retry_count : ℕ) (retry_after : Option ℕ) (r : ℚ) : ℚ :=
  let base_delay : ℚ :=
    match retry_after with
    | some ra => min (ra : ℚ) 60
    | none => min (1 * 2 ^ retry_count) 60
  base_delay * (1 - 1/5 + r * 2 * (1/5))

/-- Responses seen by `RiotAPIService._request`, as its status-code
dispatch distinguishes them (riot_api.py lines 186-222). -/
inductive ApiResp where
  | ok
  | rate (retry_after : Option ℕ)
  | notFound
  | httpErr (code : ℕ)
deriving DecidableEq

/-- The Retry-After header of a 429 response, none otherwise. -/
def rateRetryAfter : ApiResp → Option ℕ
  | .rate ra => ra
  | _ => none

/-- Whether a response is a 429. -/
def isRateResp : ApiResp → Prop
  | .rate _ => True
  | _ => False

/-- Embeds the retry loop of `RiotAPIService._request`
(riot_api.py lines 186-222): attempt `rc` sees response `resps rc` and
jitter draw `jit rc`; a 429 with `rc ≥ BACKOFF_MAX_RETRIES` raises
status 429, otherwise the loop sleeps `calculate_backoff_delay` and
recurses with `rc + 1`.  Returns the list of backoff delays slept and
the outcome (error status code, or success). -/
def requestGo (resps : ℕ → ApiResp) (jit : ℕ → ℚ) (rc : ℕ) :
    List ℚ × Except ℕ Unit :=
  match resps rc with
  | .ok => ([], .ok ())
  | .notFound => ([], .error 404)
  | .httpErr c => ([], .error c)
  | .rate ra =>
    if BACKOFF_MAX_RETRIES ≤ rc then ([], .error 429)
    else
      let d := calculate_backoff_delay rc ra (jit rc)
      let rest := requestGo resps jit (rc + 1)
      (d :: rest.1, rest.2)
termination_by BACKOFF_MAX_RETRIES - rc
decreasing_by simp [BACKOFF_MAX_RETRIES] at *; omega

/-! ## Driver sleep computation (fetch_matches_v2.py) -/

/-- Embeds `_calculate_sleep_time` (fetch_matches_v2.py lines 481-504).
`none` covers both the missing-selector and the empty-queue branches,
which return 5.0 alike. -/
def calculate_sleep_time (soonest : Option ℚ) (now : ℚ) : ℚ :=
  match soonest with
  | none => 5
  | some s => if s ≤ now then 1/10 else min (s - now) 5

/-! ## Per-match ingest and the store (fetch_matches_v2.py, database.py) -/

/-- Rows of the store touched by `_process_match`: match ids in
`lol_matches`, (match id, puuid) pairs in `lol_match_stats`, and the
match ids for which the batched synergy upsert ran. -/
structure StoreState where
  matchRows : List ℕ
  statRows : List (ℕ × ℕ)
  synergyApplied : List ℕ
deriving DecidableEq, Repr

/-- The empty store. -/
def StoreState.empty : StoreState := ⟨[], [], []⟩

/-- The participant-stat insertion loop of `_process_match`
(fetch_matches_v2.py lines 417-456).  Each `insert_match_stats` call is
its own auto-committed statement (`DatabaseService.execute` acquires a
fresh pooled connection per call, database.py lines 103-108; no
`transaction()` scope is opened anywhere in `_process_match`), so a
failure injected at write index `failAt` leaves all earlier writes
persisted.  Returns (state, next write index, errored). -/
def insertStatsLoop (st : StoreState) (matchId : ℕ) (participants : List ℕ)
    (idx : ℕ) (failAt : Option ℕ) : StoreState × ℕ × Bool :=
  match participants with
  | [] => (st, idx, false)
  | p :: rest =>
    if failAt = some idx then (st, idx, true)
    else insertStatsLoop { st with statRows := st.statRows ++ [(matchId, p)] } matchId
      rest (idx + 1) failAt

/-- Embeds the store-write sequence of `_process_match`
(fetch_matches_v2.py lines 392-479): `insert_match` (write index 0),
one `insert_match_stats` per participant (write indices 1..n), then
`update_player_synergies` when the tracked puuid participated.  Every
write auto-commits individually; an injected failure at index `failAt`
stops execution there, keeping all earlier writes.  Returns the store
after the call and whether it errored. -/
def processMatch (st : StoreState) (matchId : ℕ) (participants : List ℕ)
    (tracked : ℕ) (failAt : Option ℕ) : StoreState × Bool :=
  if failAt = some 0 then (st, true)
  else
    let st1 := { st with matchRows := st.matchRows ++ [matchId] }
    let r := insertStatsLoop st1 matchId participants 1 failAt
    if r.2.2 then (r.1, true)
    else if tracked ∈ participants then
      if failAt = some r.2.1 then (r.1, true)
      else ({ r.1 with synergyApplied := r.1.synergyApplied ++ [matchId] }, false)
    else (r.1, false)

/-! ## Theorems: scorer (C6) -/

/-- C6: for all natural-number game counts and any (possibly null)
last_match_at, the activity score equals the clamp to [0,100] of
min(games_today·10, 35) + min(games_last_3_days·2, 20) +
30·exp(−Δh/12) (0 when last_match_at is null, Δh = max(0, hours since)) +
min((games_last_7_days/7)·3, 15); and the tier is very_active iff
score ≥ 70, active iff 40 ≤ score < 70, moderate iff 20 ≤ score < 40,
else inactive. -/
theorem claim_C6_score_formula_and_tiers :
    ∀ (gt g3 g7 : ℕ) (lm : Option ℝ) (now : ℝ),
      calculate_score gt g3 g7 lm now = claimScore gt g3 g7 lm now
      ∧ 0 ≤ calculate_score gt g3 g7 lm now
      ∧ calculate_score gt g3 g7 lm now ≤ 100
      ∧ (∀ s : ℝ,
          (determine_tier s = .very_active ↔ 70 ≤ s)
          ∧ (determine_tier s = .active ↔ 40 ≤ s ∧ s < 70)
          ∧ (determine_tier s = .moderate ↔ 20 ≤ s ∧ s < 40)
          ∧ (determine_tier s = .inactive ↔ s < 20)) := by
  intro gt g3 g7 lm now
  refine ⟨?_, ?_, ?_, ?_⟩
  · unfold calculate_score claimScore
    rcases Nat.eq_zero_or_pos g7 with hg | hg
    · subst hg; norm_num
    · rw [if_pos hg]
  · exact le_max_left _ _
  · exact max_le (by norm_num) (min_le_left _ _)
  · intro s
    unfold determine_tier
    split_ifs with h1 h2 h3 <;> refine ⟨?_, ?_, ?_, ?_⟩ <;>
      simp_all <;> (try constructor) <;> (try intros) <;> linarith

/-! ## Theorems: reschedule interval (C5) and empty-fetch counter (C10) -/

/-- The interval clamp written as a `min`. -/
theorem backoffInterval_eq_min (cfg : AccountSelectorConfig) (t : Tier) (c : ℕ) :
    backoffInterval cfg t c =
      min (maxInterval cfg t)
        (if 0 < c then baseInterval cfg t * min ((2 : ℚ) ^ c) 8
         else baseInterval cfg t) := by
  unfold backoffInterval
  rcases le_or_lt
      (if 0 < c then baseInterval cfg t * min ((2 : ℚ) ^ c) 8
       else baseInterval cfg t) (maxInterval cfg t) with h | h
  · rw [if_neg (not_lt_of_ge h), min_eq_right h]
  · rw [if_pos h, min_eq_left h.le]

/-- Base intervals are nonnegative (they are natural-number minute counts). -/
theorem baseInterval_nonneg (cfg : AccountSelectorConfig) (t : Tier) :
    0 ≤ baseInterval cfg t := by
  cases t <;> simp [baseInterval]

/-- Maximum intervals are nonnegative. -/
theorem maxInterval_nonneg (cfg : AccountSelectorConfig) (t : Tier) :
    0 ≤ maxInterval cfg t := by
  cases t <;> simp [maxInterval]

/-- The pre-clamp interval is nonnegative. -/
theorem backoffInner_nonneg (cfg : AccountSelectorConfig) (t : Tier) (c : ℕ) :
    0 ≤ (if 0 < c then baseInterval cfg t * min ((2 : ℚ) ^ c) 8
         else baseInterval cfg t) := by
  split_ifs
  · exact mul_nonneg (baseInterval_nonneg cfg t)
      (le_min (pow_nonneg (by norm_num) _) (by norm_num))
  · exact baseInterval_nonneg cfg t

/-- The backoff factor is at least one once the counter is positive. -/
theorem one_le_backoffFactor (c : ℕ) (hc : 0 < c) :
    (1 : ℚ) ≤ min ((2 : ℚ) ^ c) 8 :=
  le_min (one_le_pow₀ (by norm_num)) (by norm_num)

/-- The rescheduling interval is monotone in the empty-fetch counter,
for a fixed tier. -/
theorem backoffInterval_mono (cfg : AccountSelectorConfig) (t : Tier)
    (c c' : ℕ) (h : c ≤ c') :
    backoffInterval cfg t c ≤ backoffInterval cfg t c' := by
  rw [backoffInterval_eq_min, backoffInterval_eq_min]
  refine min_le_min le_rfl ?_
  rcases Nat.eq_zero_or_pos c with hc | hc
  · subst hc
    rcases Nat.eq_zero_or_pos c' with hc' | hc'
    · subst hc'; rfl
    · rw [if_neg (lt_irrefl 0), if_pos hc']
      exact le_mul_of_one_le_right (baseInterval_nonneg cfg t)
        (one_le_backoffFactor c' hc')
  · rw [if_pos hc, if_pos (lt_of_lt_of_le hc h)]
    refine mul_le_mul_of_nonneg_left (min_le_min ?_ le_rfl)
      (baseInterval_nonneg cfg t)
    exact pow_le_pow_right₀ (by norm_num) h

/-- C5: after every reschedule, last_fetched_at = now and
next_fetch_at = now + interval, where the interval is
min(cap[tier], base[tier]·min(2^cef, 8)) for cef > 0 and
min(cap[tier], base[tier]) otherwise; hence next_fetch_at ≥
last_fetched_at, the interval never exceeds max_interval[tier], and
(for a fixed tier) a non-decreasing empty-fetch counter gives a
non-decreasing interval. -/
theorem claim_C5_reschedule :
    ∀ (cfg : AccountSelectorConfig) (account : PrioritizedAccount)
      (new_matches : ℕ) (activity_data : Option ActivityData) (now : ℚ)
      (scorerNow : ℝ),
      (rescheduleUpdate cfg account new_matches activity_data now
          scorerNow).last_fetched_at = some now
      ∧ (rescheduleUpdate cfg account new_matches activity_data now
          scorerNow).next_fetch_at
          = now + backoffInterval cfg
              (rescheduleUpdate cfg account new_matches activity_data now
                scorerNow).tier
              (rescheduleUpdate cfg account new_matches activity_data now
                scorerNow).consecutive_empty_fetches
      ∧ (∀ t c, backoffInterval cfg t c =
          min (maxInterval cfg t)
            (if 0 < c then baseInterval cfg t * min ((2 : ℚ) ^ c) 8
             else baseInterval cfg t))
      ∧ now ≤ (rescheduleUpdate cfg account new_matches activity_data now
          scorerNow).next_fetch_at
      ∧ (∀ t c, backoffInterval cfg t c ≤ maxInterval cfg t)
      ∧ (∀ t c c', c ≤ c' →
          backoffInterval cfg t c ≤ backoffInterval cfg t c') := by
  intro cfg account new_matches activity_data now scorerNow
  refine ⟨by simp [rescheduleUpdate], by simp [rescheduleUpdate],
    backoffInterval_eq_min cfg, ?_, ?_, backoffInterval_mono cfg⟩
  · have h0 : 0 ≤ backoffInterval cfg
        (rescheduleUpdate cfg account new_matches activity_data now
          scorerNow).tier
        (rescheduleUpdate cfg account new_matches activity_data now
          scorerNow).consecutive_empty_fetches := by
      rw [backoffInterval_eq_min]
      exact le_min (maxInterval_nonneg _ _) (backoffInner_nonneg _ _ _)
    calc now ≤ now + _ := le_add_of_nonneg_right h0
    _ = _ := by simp [rescheduleUpdate]
  · intro t c
    rw [backoffInterval_eq_min]
    exact min_le_left _ _

/-- Witness for C5 at a concrete configuration and account. -/
theorem claim_C5_reschedule_witness :
    backoffInterval {} .active 1 ≤ backoffInterval {} .active 2 :=
  (claim_C5_reschedule {} ⟨0, 0, .inactive, 0, none, none, 0⟩ 0 none 0
    0).2.2.2.2.2 .active 1 2 (by decide)

/-- C10: reschedule sets the empty-fetch counter to 0 exactly when
new_matches > 0 (whether or not fresh activity data is supplied), and
increments it by exactly 1 when new_matches = 0. -/
theorem claim_C10_empty_fetch_counter :
    ∀ (cfg : AccountSelectorConfig) (account : PrioritizedAccount)
      (new_matches : ℕ) (activity_data : Option ActivityData) (now : ℚ)
      (scorerNow : ℝ),
      (rescheduleUpdate cfg account new_matches activity_data now
          scorerNow).consecutive_empty_fetches
        = if 0 < new_matches then 0
          else account.consecutive_empty_fetches + 1 := by
  intro cfg account new_matches activity_data now scorerNow
  simp [rescheduleUpdate]

/-! ## Theorems: start-time selection (C2) -/

/-- Counterexample to C2: a last_match_at of epoch 1600000000
(September 2020) is after the code's 1577836800 cutoff but before
DEFAULT_START_TIME, and the code uses it as-is, strictly below
DEFAULT_START_TIME, where the claim required max with
DEFAULT_START_TIME. -/
theorem claim_C2_counterexample :
    computeStartTime (some 1600000000) = 1600000000
    ∧ computeStartTime (some 1600000000) < DEFAULT_START_TIME
    ∧ claimStartTime (some 1600000000) = DEFAULT_START_TIME
    ∧ computeStartTime (some 1600000000) ≠ claimStartTime (some 1600000000) := by
  refine ⟨by decide, by decide, by decide, by decide⟩

/-- C2 amended: the lower-bound start time equals last_match_at's epoch
value whenever that exceeds 1577836800 (2020-01-01 UTC), and
DEFAULT_START_TIME otherwise; in particular a null or pre-2020
last_match_at yields DEFAULT_START_TIME, and the start time always
exceeds 1577836800 (values between 1577836800 and DEFAULT_START_TIME
are used as-is). -/
theorem claim_C2_start_time :
    ∀ lm : Option ℤ,
      1577836800 < computeStartTime lm
      ∧ (computeStartTime lm = DEFAULT_START_TIME
          ∨ ∃ ts, lm = some ts ∧ 1577836800 < ts ∧ computeStartTime lm = ts)
      ∧ (lm = none → computeStartTime lm = DEFAULT_START_TIME)
      ∧ (∀ ts, lm = some ts → ts ≤ 1577836800 →
          computeStartTime lm = DEFAULT_START_TIME)
      ∧ (∀ ts, lm = some ts → 1577836800 < ts → computeStartTime lm = ts) := by
  intro lm
  have hD : (1577836800 : ℤ) < DEFAULT_START_TIME := by decide
  rcases lm with _ | ts
  · refine ⟨hD, Or.inl rfl, fun _ => rfl, ?_, ?_⟩
    · intro ts h; cases h
    · intro ts h; cases h
  · by_cases h : (1577836800 : ℤ) < ts
    · refine ⟨?_, Or.inr ⟨ts, rfl, h, by simp [computeStartTime, h]⟩, ?_, ?_, ?_⟩
      · simpa [computeStartTime, h] using h
      · intro hc; cases hc
      · intro ts' hts' hle
        injection hts' with he; subst he
        exact absurd h (not_lt.mpr hle)
      · intro ts' hts' hlt
        injection hts' with he; subst he; simp [computeStartTime, h]
    · refine ⟨?_, Or.inl (by simp [computeStartTime, h]), ?_, ?_, ?_⟩
      · simpa [computeStartTime, h] using hD
      · intro hc; cases hc
      · intro ts' hts' hle
        injection hts' with he; subst he; simp [computeStartTime, h]
      · intro ts' hts' hlt
        injection hts' with he; subst he; exact absurd hlt h

/-- Witness for C2 amended: a pre-2020 timestamp falls back to
DEFAULT_START_TIME. -/
theorem claim_C2_start_time_witness :
    computeStartTime (some 1000) = DEFAULT_START_TIME :=
  (claim_C2_start_time (some 1000)).2.2.2.1 1000 rfl (by decide)

/-! ## Theorems: driver sleep (C4) -/

/-- Counterexample to C4: with the soonest account due 1/20 s in the
future, the code returns 1/20 s, strictly below the claimed 0.1 s
lower clamp. -/
theorem claim_C4_counterexample :
    calculate_sleep_time (some (1/20)) 0 = 1/20
    ∧ (1/20 : ℚ) < 1/10 := by
  constructor
  · norm_num [calculate_sleep_time]
  · norm_num

/-- C4 amended: the sleep is always in (0, 5]: it is 5 when the queues
are empty, 0.1 when the soonest account is already due, and otherwise
min(soonest − now, 5) — which can fall strictly below 0.1 when the
soonest account is due within the next 0.1 s. -/
theorem claim_C4_sleep :
    ∀ (soonest : Option ℚ) (now : ℚ),
      0 < calculate_sleep_time soonest now
      ∧ calculate_sleep_time soonest now ≤ 5
      ∧ (soonest = none → calculate_sleep_time soonest now = 5)
      ∧ (∀ s, soonest = some s → s ≤ now →
          calculate_sleep_time soonest now = 1/10)
      ∧ (∀ s, soonest = some s → now < s →
          calculate_sleep_time soonest now = min (s - now) 5) := by
  intro soonest now
  rcases soonest with _ | s
  · refine ⟨by norm_num [calculate_sleep_time],
      by norm_num [calculate_sleep_time], fun _ => rfl, ?_, ?_⟩
    · intro s h; cases h
    · intro s h; cases h
  · by_cases h : s ≤ now
    · refine ⟨?_, ?_, ?_, ?_, ?_⟩
      · simp [calculate_sleep_time, h]
      · simp only [calculate_sleep_time, if_pos h]; norm_num
      · intro hc; cases hc
      · intro s' hs' _; simp [calculate_sleep_time, h]
      · intro s' hs' hlt
        injection hs' with he; subst he; exact absurd hlt (not_lt_of_ge h)
    · push_neg at h
      refine ⟨?_, ?_, ?_, ?_, ?_⟩
      · simp only [calculate_sleep_time, if_neg (not_le_of_gt h)]
        exact lt_min (by linarith) (by norm_num)
      · simp only [calculate_sleep_time, if_neg (not_le_of_gt h)]
        exact min_le_right _ _
      · intro hc; cases hc
      · intro s' hs' hle
        injection hs' with he; subst he; exact absurd hle (not_le_of_gt h)
      · intro s' hs' _
        injection hs' with he; subst he
        simp [calculate_sleep_time, not_le_of_gt h]

/-- Witness for C4 amended at a concrete due time. -/
theorem claim_C4_sleep_witness :
    calculate_sleep_time (some 3) 1 = min ((3 : ℚ) - 1) 5 :=
  (claim_C4_sleep (some 3) 1).2.2.2.2 3 rfl (by norm_num)

/-! ## Theorems: per-match ingest is not atomic (C1) -/

/-- C1 evaluated at the failing input: ingesting match 1 with ten
participants where the 6th participant-stat insert fails (write index 6)
errors, yet leaves the match row and the first five stat rows persisted
and no synergy update — there is no enclosing transaction to roll them
back. -/
theorem claim_C1_partial_write_persists :
    (processMatch .empty 1 [10, 11, 12, 13, 14, 15, 16, 17, 18, 19] 10
        (some 6)).2 = true
    ∧ (processMatch .empty 1 [10, 11, 12, 13, 14, 15, 16, 17, 18, 19] 10
        (some 6)).1.matchRows = [1]
    ∧ (processMatch .empty 1 [10, 11, 12, 13, 14, 15, 16, 17, 18, 19] 10
        (some 6)).1.statRows
        = [(1, 10), (1, 11), (1, 12), (1, 13), (1, 14)]
    ∧ (processMatch .empty 1 [10, 11, 12, 13, 14, 15, 16, 17, 18, 19] 10
        (some 6)).1.synergyApplied = [] := by
  refine ⟨by decide, by decide, by decide, by decide⟩

/-! ## Theorems: 429 retry loop (C3) -/

/-- Unfolding equation for the retry loop. -/
theorem requestGo_eq (resps : ℕ → ApiResp) (jit : ℕ → ℚ) (rc : ℕ) :
    requestGo resps jit rc =
      match resps rc with
      | .ok => ([], .ok ())
      | .notFound => ([], .error 404)
      | .httpErr c => ([], .error c)
      | .rate ra =>
        if BACKOFF_MAX_RETRIES ≤ rc then ([], .error 429)
        else
          (calculate_backoff_delay rc ra (jit rc) ::
              (requestGo resps jit (rc + 1)).1,
            (requestGo resps jit (rc + 1)).2) := by
  rw [requestGo]

/-- The jittered delay is nonnegative and strictly below 72 s: the 60 s
cap applies to the base delay before the jitter factor, which lies in
[0.8, 1.2). -/
theorem backoff_delay_bounds (rc : ℕ) (ra : Option ℕ) (r : ℚ)
    (hr0 : 0 ≤ r) (hr1 : r < 1) :
    0 ≤ calculate_backoff_delay rc ra r
    ∧ calculate_backoff_delay rc ra r < 72 := by
  unfold calculate_backoff_delay
  have hbase0 : (0 : ℚ) ≤
      (match ra with
       | some a => min (a : ℚ) 60
       | none => min (1 * 2 ^ rc) 60) := by
    rcases ra with _ | a
    · exact le_min (by positivity) (by norm_num)
    · exact le_min (by positivity) (by norm_num)
  have hbase60 : (match ra with
       | some a => min (a : ℚ) 60
       | none => min (1 * 2 ^ rc) 60) ≤ 60 := by
    rcases ra with _ | a
    · exact min_le_right _ _
    · exact min_le_right _ _
  have hf0 : (0 : ℚ) ≤ 1 - 1/5 + r * 2 * (1/5) := by linarith
  have hf1 : 1 - 1/5 + r * 2 * (1/5) < 6/5 := by linarith
  constructor
  · exact mul_nonneg hbase0 hf0
  · calc _ ≤ 60 * (1 - 1/5 + r * 2 * (1/5)) :=
        mul_le_mul_of_nonneg_right hbase60 hf0
    _ < 60 * (6/5) := by
        have h60 : (0 : ℚ) < 60 := by norm_num
        exact (mul_lt_mul_left h60).mpr hf1
    _ = 72 := by norm_num

/-- Combined fuel-indexed specification of the retry loop: delay count,
per-delay formula, and exhaustion outcome. -/
theorem requestGo_props (resps : ℕ → ApiResp) (jit : ℕ → ℚ) :
    ∀ (fuel rc : ℕ), rc ≤ BACKOFF_MAX_RETRIES →
      BACKOFF_MAX_RETRIES + 1 - rc ≤ fuel →
      ((requestGo resps jit rc).1.length + rc ≤ BACKOFF_MAX_RETRIES)
      ∧ (∀ i, (hi : i < (requestGo resps jit rc).1.length) →
          (requestGo resps jit rc).1.get ⟨i, hi⟩
            = calculate_backoff_delay (rc + i)
                (rateRetryAfter (resps (rc + i))) (jit (rc + i)))
      ∧ ((∀ n, n ≤ BACKOFF_MAX_RETRIES → isRateResp (resps n)) →
          (requestGo resps jit rc).2 = Except.error 429) := by
  intro fuel
  induction fuel with
  | zero =>
    intro rc hrc hfuel
    exact absurd hfuel (by simp [BACKOFF_MAX_RETRIES] at *; omega)
  | succ fuel ih =>
    intro rc hrc hfuel
    have heq := requestGo_eq resps jit rc
    rcases hresp : resps rc with _ | ra | _ | c <;> rw [hresp] at heq <;>
      dsimp only at heq
    · rw [heq]
      refine ⟨by simpa using hrc, ?_, ?_⟩
      · intro i hi; simp at hi
      · intro hall
        have h1 := hall rc hrc
        rw [hresp] at h1
        simp [isRateResp] at h1
    · by_cases hge : BACKOFF_MAX_RETRIES ≤ rc
      · rw [heq, if_pos hge]
        refine ⟨by simpa using hrc, ?_, fun _ => rfl⟩
        intro i hi; simp at hi
      · rw [heq, if_neg hge]
        have hrc' : rc + 1 ≤ BACKOFF_MAX_RETRIES := by omega
        have hfuel' : BACKOFF_MAX_RETRIES + 1 - (rc + 1) ≤ fuel := by omega
        obtain ⟨ihlen, ihget, ihrate⟩ := ih (rc + 1) hrc' hfuel'
        refine ⟨?_, ?_, fun hall => ihrate hall⟩
        · simp only [List.length_cons]; omega
        · intro i hi
          match i with
          | 0 =>
            simp [hresp, rateRetryAfter]
          | (j + 1) =>
            have hj : j < (requestGo resps jit (rc + 1)).1.length := by
              simp only [List.length_cons] at hi; omega
            have h2 := ihget j hj
            have harith : rc + 1 + j = rc + (j + 1) := by omega
            rw [harith] at h2
            simpa using h2
    · rw [heq]
      refine ⟨by simpa using hrc, ?_, ?_⟩
      · intro i hi; simp at hi
      · intro hall
        have h1 := hall rc hrc
        rw [hresp] at h1
        simp [isRateResp] at h1
    · rw [heq]
      refine ⟨by simpa using hrc, ?_, ?_⟩
      · intro i hi; simp at hi
      · intro hall
        have h1 := hall rc hrc
        rw [hresp] at h1
        simp [isRateResp] at h1

/-- Responses of the concrete rate-limited trace: one 429 carrying a
Retry-After of 1800 s, then success. -/
def ceResps : ℕ → ApiResp := fun n => if n = 0 then .rate (some 1800) else .ok

/-- Concrete jitter draws: `random.random()` returning 3/4 every time,
a jitter factor of 1.1. -/
def ceJit : ℕ → ℚ := fun _ => 3/4

/-- Counterexample to C3: a 429 carrying Retry-After = 1800 with jitter
draw 3/4 makes the code sleep 60 · 1.1 = 66 s — a single backoff delay
exceeding the claimed 60 s bound, because the 60 s cap is applied before
the ±20 % jitter. -/
theorem claim_C3_counterexample :
    (requestGo ceResps ceJit 0).1 = [66]
    ∧ ¬ ((66 : ℚ) ≤ 60) := by
  constructor
  · rw [requestGo_eq]
    norm_num [ceResps, BACKOFF_MAX_RETRIES]
    rw [requestGo_eq]
    norm_num [ceResps, ceJit, calculate_backoff_delay]
  · norm_num

/-- C3 amended: the API client retries a 429 at most 5 times; the n-th
retry delay is the jittered value of min(60, 2^n) s, or of
min(60, Retry-After) s when the header is present, with the jitter
factor 0.8 + 0.4·random applied after the 60 s cap; each individual
delay is therefore below 72 s (not 60 s); after the 5th retry the
request surfaces error status 429. -/
theorem claim_C3_backoff (resps : ℕ → ApiResp) (jit : ℕ → ℚ)
    (hj : ∀ n, 0 ≤ jit n ∧ jit n < 1) :
    (requestGo resps jit 0).1.length ≤ 5
    ∧ (∀ (n : ℕ) (ra : Option ℕ) (r : ℚ),
        calculate_backoff_delay n ra r
          = (match ra with
             | some a => min 60 (a : ℚ)
             | none => min 60 ((2 : ℚ) ^ n)) * (1 - 1/5 + r * 2 * (1/5)))
    ∧ (∀ i, (hi : i < (requestGo resps jit 0).1.length) →
        (requestGo resps jit 0).1.get ⟨i, hi⟩
          = calculate_backoff_delay i (rateRetryAfter (resps i)) (jit i)
        ∧ (requestGo resps jit 0).1.get ⟨i, hi⟩ < 72)
    ∧ ((∀ n, n ≤ 5 → isRateResp (resps n)) →
        (requestGo resps jit 0).2 = Except.error 429) := by
  obtain ⟨hlen, hget, hrate⟩ :=
    requestGo_props resps jit (BACKOFF_MAX_RETRIES + 1) 0
      (Nat.zero_le _) le_rfl
  refine ⟨by simpa [BACKOFF_MAX_RETRIES] using hlen, ?_, ?_, hrate⟩
  · intro n ra r
    unfold calculate_backoff_delay
    rcases ra with _ | a
    · simp only [min_comm, one_mul]
    · simp only [min_comm]
  · intro i hi
    have hg := hget i hi
    rw [Nat.zero_add] at hg
    refine ⟨hg, ?_⟩
    rw [hg]
    exact (backoff_delay_bounds i _ _ (hj i).1 (hj i).2).2

/-- Witness for C3 amended on the concrete trace. -/
theorem claim_C3_backoff_witness :
    (requestGo ceResps ceJit 0).1.length ≤ 5 :=
  (claim_C3_backoff ceResps ceJit
    (fun n => ⟨by norm_num [ceJit], by norm_num [ceJit]⟩)).1

/-! ## Region priority heaps (account_selector.py with Python's heapq)

`heappush`/`heappop` below embed CPython's `heapq.heappush`,
`heapq.heappop`, `heapq._siftdown` and `heapq._siftup`, which
`AccountSelector` uses on each region queue.  A queue entry is reduced
to its ordering key `next_fetch_at : ℚ` (PrioritizedAccount.__lt__
compares only next_fetch_at) paired with a ℕ payload standing for the
account identity. -/

/-- A heap entry: (next_fetch_at, account id). -/
abbrev Entry : Type := ℚ × ℕ

/-- Default entry for out-of-range reads (never reached under the
bounds carried by every lemma). -/
def dflt : Entry := (0, 0)

/-- The key stored at index `i`. -/
def keyAt (l : List Entry) (i : ℕ) : ℚ := (l.getD i dflt).1

/-- Embeds `heapq._siftdown(heap, startpos, pos)`: `newitem` bubbles up
from `pos` toward `startpos`, moving parents down along the way, and is
written at the final position. -/
def siftdownLoop (heap : List Entry) (startpos pos : ℕ) (newitem : Entry) :
    List Entry :=
  if startpos < pos then
    let parentpos := (pos - 1) / 2
    let parent := heap.getD parentpos dflt
    if newitem.1 < parent.1 then
      siftdownLoop (heap.set pos parent) startpos parentpos newitem
    else heap.set pos newitem
  else heap.set pos newitem
termination_by pos
decreasing_by omega

/-- The child index chosen by `heapq._siftup`'s loop body: the left
child, or the right child when it exists and the left is not smaller. -/
def siftupChildIdx (heap : List Entry) (pos : ℕ) : ℕ :=
  let childpos := 2 * pos + 1
  let rightpos := childpos + 1
  if rightpos < heap.length ∧
      ¬ (heap.getD childpos dflt).1 < (heap.getD rightpos dflt).1 then
    rightpos
  else childpos

/-- The descending loop of `heapq._siftup`: the hole at `pos` moves down
to a leaf, the smaller child moving up each step.  Returns the list and
the final hole position. -/
def siftupLoop (heap : List Entry) (pos : ℕ) : List Entry × ℕ :=
  if h : 2 * pos + 1 < heap.length then
    siftupLoop (heap.set pos (heap.getD (siftupChildIdx heap pos) dflt))
      (siftupChildIdx heap pos)
  else (heap, pos)
termination_by heap.length - pos
decreasing_by
  simp only [List.length_set]
  unfold siftupChildIdx
  dsimp only
  split_ifs with h2
  · obtain ⟨h3, _⟩ := h2; omega
  · omega

/-- Embeds `heapq._siftup(heap, pos)`: record the item at `pos`, run the
descending loop, write the item into the final hole and bubble it back
up with `_siftdown(heap, pos, finalpos)`. -/
def siftup (heap : List Entry) (pos : ℕ) : List Entry :=
  let newitem := heap.getD pos dflt
  let r := siftupLoop heap pos
  siftdownLoop r.1 pos r.2 newitem

/-- Embeds `heapq.heappush`: append, then sift down from the last slot. -/
def heappush (heap : List Entry) (item : Entry) : List Entry :=
  siftdownLoop (heap ++ [item]) 0 heap.length item

/-- Embeds `heapq.heappop`: pop the last element; on a nonempty
remainder, move it to the root and `_siftup(heap, 0)`, returning the old
root. -/
def heappop (heap : List Entry) : Option (Entry × List Entry) :=
  match heap with
  | [] => none
  | [x] => some (x, [])
  | x :: y :: ys =>
    some (x,
      siftup (((x :: y :: ys).dropLast).set 0 ((x :: y :: ys).getLastD dflt)) 0)

/-- The min-heap property claimed for every region queue: each node's
key is at most its children's (stated through the parent index). -/
def heapProp (l : List Entry) : Prop :=
  ∀ j, 0 < j → j < l.length → keyAt l ((j - 1) / 2) ≤ keyAt l j

/-- All parent-child edges hold except those into node `pos` and those
out of node `pos` (whose slot is a hole during sifting). -/
def edgesExcept (l : List Entry) (pos : ℕ) : Prop :=
  ∀ j, 0 < j → j < l.length → j ≠ pos → (j - 1) / 2 ≠ pos →
    keyAt l ((j - 1) / 2) ≤ keyAt l j

/-- Children of the hole dominate the new item (so writing it at the
hole restores those edges). -/
def childrenGeNew (l : List Entry) (pos : ℕ) (ni : Entry) : Prop :=
  ∀ j, 0 < j → j < l.length → (j - 1) / 2 = pos → ni.1 ≤ keyAt l j

/-- Children of the hole dominate the hole's parent (so moving that
parent down into the hole keeps those edges). -/
def childrenGeGrand (l : List Entry) (pos : ℕ) : Prop :=
  0 < pos → ∀ j, 0 < j → j < l.length → (j - 1) / 2 = pos →
    keyAt l ((pos - 1) / 2) ≤ keyAt l j

/-- Reading at an index just set. -/
theorem keyAt_set_eq (l : List Entry) (i : ℕ) (x : Entry) (h : i < l.length) :
    keyAt (l.set i x) i = x.1 := by
  simp [keyAt, List.getD, List.getElem?_set_self', h]

/-- Reading elsewhere than the set index. -/
theorem keyAt_set_ne (l : List Entry) (i j : ℕ) (x : Entry) (h : j ≠ i) :
    keyAt (l.set i x) j = keyAt l j := by
  simp [keyAt, List.getD, List.getElem?_set_ne (fun he => h he.symm)]

/-- Reading within the left part of an append. -/
theorem keyAt_append_lt (l l' : List Entry) (i : ℕ) (h : i < l.length) :
    keyAt (l ++ l') i = keyAt l i := by
  simp [keyAt, List.getD, List.getElem?_append, h]

/-- The sift-down loop started at root (`startpos = 0`) restores the
full heap property from the three-part hole invariant. -/
theorem siftdownLoop_heapProp (pos : ℕ) :
    ∀ (l : List Entry) (ni : Entry), pos < l.length →
      edgesExcept l pos → childrenGeNew l pos ni → childrenGeGrand l pos →
      heapProp (siftdownLoop l 0 pos ni) := by
  induction pos using Nat.strong_induction_on with
  | _ pos ih =>
    intro l ni hlen h1 h2 h3
    rw [siftdownLoop]
    by_cases hp : 0 < pos
    · rw [if_pos hp]
      have hpplt : (pos - 1) / 2 < pos := by omega
      by_cases hlt : ni.1 < (l.getD ((pos - 1) / 2) dflt).1
      · rw [if_pos hlt]
        have hpv : (l.getD ((pos - 1) / 2) dflt).1 = keyAt l ((pos - 1) / 2) := rfl
        apply ih ((pos - 1) / 2) hpplt
        · simp only [List.length_set]; omega
        · -- edgesExcept after moving the parent into the hole
          intro j hj0 hjlen hjne hjpar
          simp only [List.length_set] at hjlen
          by_cases hjpos : j = pos
          · exact absurd (by omega : (j - 1) / 2 = (pos - 1) / 2) (hjpos ▸ hjpar)
          · by_cases hjchild : (j - 1) / 2 = pos
            · have hjne' : j ≠ pos := hjpos
              rw [hjchild, keyAt_set_eq l pos _ hlen, keyAt_set_ne l pos j _ hjne']
              exact h3 hp j hj0 hjlen hjchild
            · rw [keyAt_set_ne l pos j _ hjpos, keyAt_set_ne l pos _ _ hjchild]
              exact h1 j hj0 hjlen hjpos hjchild
        · -- children of the new hole dominate the new item
          intro j hj0 hjlen hjchild
          simp only [List.length_set] at hjlen
          by_cases hjpos : j = pos
          · rw [hjpos, keyAt_set_eq l pos _ hlen]
            exact le_of_lt hlt
          · rw [keyAt_set_ne l pos j _ hjpos]
            have hppne : (pos - 1) / 2 ≠ pos := by omega
            have := h1 j hj0 hjlen hjpos (by rw [hjchild]; exact hppne)
            rw [hjchild] at this
            exact le_trans (le_of_lt hlt) this
        · -- children of the new hole dominate its parent
          intro hpp0 j hj0 hjlen hjchild
          simp only [List.length_set] at hjlen
          have hppplt : ((pos - 1) / 2 - 1) / 2 < (pos - 1) / 2 := by omega
          have hpppne : ((pos - 1) / 2 - 1) / 2 ≠ pos := by omega
          have hppne : (pos - 1) / 2 ≠ pos := by omega
          have hedge : keyAt l (((pos - 1) / 2 - 1) / 2) ≤ keyAt l ((pos - 1) / 2) :=
            h1 ((pos - 1) / 2) hpp0 (by omega) hppne (by omega)
          rw [keyAt_set_ne l pos _ _ hpppne]
          by_cases hjpos : j = pos
          · rw [hjpos, keyAt_set_eq l pos _ hlen]
            exact hedge
          · rw [keyAt_set_ne l pos j _ hjpos]
            have h4 := h1 j hj0 hjlen hjpos (by rw [hjchild]; exact hppne)
            rw [hjchild] at h4
            exact le_trans hedge h4
      · rw [if_neg hlt]
        -- exit: parent ≤ newitem, write newitem at the hole
        intro j hj0 hjlen
        simp only [List.length_set] at hjlen
        by_cases hjpos : j = pos
        · subst hjpos
          have hppne : (j - 1) / 2 ≠ j := by omega
          rw [keyAt_set_ne l j _ _ hppne, keyAt_set_eq l j _ hlen]
          exact le_of_not_lt hlt
        · by_cases hjchild : (j - 1) / 2 = pos
          · rw [keyAt_set_ne l pos j _ hjpos, hjchild, keyAt_set_eq l pos _ hlen]
            exact h2 j hj0 hjlen hjchild
          · rw [keyAt_set_ne l pos j _ hjpos, keyAt_set_ne l pos _ _ hjchild]
            exact h1 j hj0 hjlen hjpos hjchild
    · rw [if_neg hp]
      have hp0 : pos = 0 := by omega
      subst hp0
      intro j hj0 hjlen
      simp only [List.length_set] at hjlen
      by_cases hjchild : (j - 1) / 2 = 0
      · rw [hjchild, keyAt_set_eq l 0 _ hlen, keyAt_set_ne l 0 j _ (by omega)]
        exact h2 j hj0 hjlen hjchild
      · rw [keyAt_set_ne l 0 j _ (by omega), keyAt_set_ne l 0 _ _ hjchild]
        exact h1 j hj0 hjlen (by omega) hjchild

/-- Extracting the element at `m` to the front while writing `x` at `m`
is a permutation of putting `x` in front. -/
theorem set_cons_out_perm :
    ∀ (t : List Entry) (m : ℕ), m < t.length → ∀ (x : Entry),
      ((t.getD m dflt) :: t.set m x).Perm (x :: t) := by
  intro t
  induction t with
  | nil => intro m hm; simp at hm
  | cons a t' ih =>
    intro m hm x
    match m with
    | 0 =>
      simp only [List.getD_cons_zero, List.set_cons_zero]
      exact List.Perm.swap x a t'
    | (k + 1) =>
      simp only [List.getD_cons_succ, List.set_cons_succ]
      exact ((List.Perm.swap a _ _).trans
        ((ih k (by simpa using hm) x).cons a)).trans (List.Perm.swap x a t')

/-- Swapping which of two values goes in front and which goes at
index `m` is a permutation. -/
theorem set_swap_head_perm :
    ∀ (t : List Entry) (m : ℕ), m < t.length → ∀ (a x : Entry),
      (x :: t.set m a).Perm (a :: t.set m x) := by
  intro t
  induction t with
  | nil => intro m hm; simp at hm
  | cons b t' ih =>
    intro m hm a x
    match m with
    | 0 =>
      simp only [List.set_cons_zero]
      exact List.Perm.swap a x t'
    | (k + 1) =>
      simp only [List.set_cons_succ]
      exact ((List.Perm.swap b _ _).trans
        ((ih k (by simpa using hm) a x).cons b)).trans
        (List.Perm.swap a b (t'.set k x))

/-- Moving the value at `j` to slot `i` and then overwriting slot `j`
with `x` permutes to simply writing `x` at slot `i`. -/
theorem set_set_perm :
    ∀ (l : List Entry) (i j : ℕ), i ≠ j → i < l.length → j < l.length →
      ∀ (x : Entry), ((l.set i (l.getD j dflt)).set j x).Perm (l.set i x) := by
  intro l
  induction l with
  | nil => intro i j _ hi; simp at hi
  | cons a t ih =>
    intro i j hij hi hj x
    match i, j with
    | 0, 0 => exact absurd rfl hij
    | 0, (m + 1) =>
      simp only [List.getD_cons_succ, List.set_cons_zero, List.set_cons_succ]
      exact set_cons_out_perm t m (by simpa using hj) x
    | (m + 1), 0 =>
      simp only [List.getD_cons_zero, List.set_cons_zero, List.set_cons_succ]
      exact set_swap_head_perm t m (by simpa using hi) a x
    | (m + 1), (k + 1) =>
      simp only [List.getD_cons_succ, List.set_cons_succ]
      exact (ih m k (by omega) (by simpa using hi) (by simpa using hj) x).cons a

/-- The sift-down loop preserves length. -/
theorem siftdownLoop_length (pos : ℕ) :
    ∀ (l : List Entry) (s : ℕ) (ni : Entry),
      (siftdownLoop l s pos ni).length = l.length := by
  induction pos using Nat.strong_induction_on with
  | _ pos ih =>
    intro l s ni
    rw [siftdownLoop]
    by_cases hp : s < pos
    · rw [if_pos hp]
      by_cases hlt : ni.1 < (l.getD ((pos - 1) / 2) dflt).1
      · rw [if_pos hlt, ih ((pos - 1) / 2) (by omega)]
        simp
      · rw [if_neg hlt]; simp
    · rw [if_neg hp]; simp

/-- The sift-down loop permutes to writing the new item at the start
position. -/
theorem siftdownLoop_perm (pos : ℕ) :
    ∀ (l : List Entry) (s : ℕ) (ni : Entry), pos < l.length →
      (siftdownLoop l s pos ni).Perm (l.set pos ni) := by
  induction pos using Nat.strong_induction_on with
  | _ pos ih =>
    intro l s ni hlen
    rw [siftdownLoop]
    by_cases hp : s < pos
    · rw [if_pos hp]
      by_cases hlt : ni.1 < (l.getD ((pos - 1) / 2) dflt).1
      · rw [if_pos hlt]
        have hpplt : (pos - 1) / 2 < pos := by omega
        have h1 := ih ((pos - 1) / 2) hpplt
          (l.set pos (l.getD ((pos - 1) / 2) dflt)) s ni
          (by simp only [List.length_set]; omega)
        exact h1.trans (set_set_perm l pos ((pos - 1) / 2) (by omega) hlen
          (by omega) ni)
      · rw [if_neg hlt]
    · rw [if_neg hp]

/-- Pushing appends exactly the new entry, as a multiset. -/
theorem heappush_perm (l : List Entry) (x : Entry) :
    (heappush l x).Perm (x :: l) := by
  unfold heappush
  have h1 := siftdownLoop_perm l.length (l ++ [x]) 0 x (by simp)
  have h2 : (l ++ [x]).set l.length x = l ++ [x] := by
    apply List.ext_getElem
    · simp
    · intro i h3 h4
      by_cases hi : i = l.length
      · subst hi
        rw [List.getElem_set_self (by simpa using h3)]
        rw [List.getElem_append_right (by omega)]
        simp
      · rw [List.getElem_set_ne (by omega)]
  rw [h2] at h1
  exact h1.trans (List.perm_append_comm)

/-- Pushing grows the heap by one entry. -/
theorem heappush_length (l : List Entry) (x : Entry) :
    (heappush l x).length = l.length + 1 := by
  unfold heappush
  rw [siftdownLoop_length]
  simp

/-- Pushing preserves the heap property. -/
theorem heappush_heapProp (l : List Entry) (x : Entry) (hp : heapProp l) :
    heapProp (heappush l x) := by
  unfold heappush
  apply siftdownLoop_heapProp l.length (l ++ [x]) x (by simp)
  · intro j hj0 hjlen hjne _
    simp only [List.length_append, List.length_cons, List.length_nil] at hjlen
    have hjlt : j < l.length := by omega
    rw [keyAt_append_lt l [x] j hjlt, keyAt_append_lt l [x] _ (by omega)]
    exact hp j hj0 hjlt
  · intro j hj0 hjlen hjchild
    simp only [List.length_append, List.length_cons, List.length_nil] at hjlen
    omega
  · intro _ j hj0 hjlen hjchild
    simp only [List.length_append, List.length_cons, List.length_nil] at hjlen
    omega

/-- In a heap, the root key is minimal. -/
theorem heapProp_root_le (l : List Entry) (hp : heapProp l) :
    ∀ i, i < l.length → keyAt l 0 ≤ keyAt l i := by
  intro i
  induction i using Nat.strong_induction_on with
  | _ i ih =>
    intro hi
    match i with
    | 0 => exact le_refl _
    | (j + 1) =>
      have h1 := hp (j + 1) (by omega) hi
      have h2 := ih ((j + 1 - 1) / 2) (by omega) (by omega)
      exact le_trans h2 h1

/-- In a heap, the root key bounds every member's key. -/
theorem heapProp_root_le_mem (l : List Entry) (hp : heapProp l) :
    ∀ y ∈ l, keyAt l 0 ≤ y.1 := by
  intro y hy
  obtain ⟨i, hi, hget⟩ := List.mem_iff_getElem.mp hy
  have h1 := heapProp_root_le l hp i hi
  rwa [show keyAt l i = y.1 by rw [keyAt, List.getD_eq_getElem l dflt hi, hget]]
    at h1

/-- The chosen child is a child of `pos`, in range, and its key is
minimal among the children of `pos`. -/
theorem siftupChildIdx_spec (l : List Entry) (pos : ℕ)
    (h : 2 * pos + 1 < l.length) :
    2 * pos + 1 ≤ siftupChildIdx l pos
    ∧ siftupChildIdx l pos ≤ 2 * pos + 2
    ∧ siftupChildIdx l pos < l.length
    ∧ (siftupChildIdx l pos - 1) / 2 = pos
    ∧ ∀ j, 0 < j → j < l.length → (j - 1) / 2 = pos →
        keyAt l (siftupChildIdx l pos) ≤ keyAt l j := by
  unfold siftupChildIdx
  dsimp only
  split_ifs with h2
  · obtain ⟨h3, h4⟩ := h2
    refine ⟨by omega, by omega, by omega, by omega, ?_⟩
    intro j hj0 hjlen hjchild
    have hj : j = 2 * pos + 1 ∨ j = 2 * pos + 1 + 1 := by omega
    rcases hj with hj | hj <;> subst hj
    · simpa [keyAt] using le_of_not_lt h4
    · exact le_refl _
  · refine ⟨le_refl _, by omega, h, by omega, ?_⟩
    intro j hj0 hjlen hjchild
    have hj : j = 2 * pos + 1 ∨ j = 2 * pos + 1 + 1 := by omega
    rcases hj with hj | hj <;> subst hj
    · exact le_refl _
    · have h5 : (l.getD (2 * pos + 1) dflt).1 < (l.getD (2 * pos + 1 + 1) dflt).1 := by
        by_contra h6
        exact h2 ⟨hjlen, h6⟩
      simpa [keyAt] using le_of_lt h5

/-- Length and final-position bounds for the descending loop. -/
theorem siftupLoop_basic :
    ∀ (fuel : ℕ) (l : List Entry) (pos : ℕ),
      l.length - pos ≤ fuel → pos < l.length →
      (siftupLoop l pos).1.length = l.length
      ∧ pos ≤ (siftupLoop l pos).2
      ∧ (siftupLoop l pos).2 < l.length
      ∧ l.length ≤ 2 * (siftupLoop l pos).2 + 1 := by
  intro fuel
  induction fuel with
  | zero =>
    intro l pos hf hp
    exact absurd hp (by omega)
  | succ fuel ih =>
    intro l pos hf hp
    rw [siftupLoop]
    by_cases h : 2 * pos + 1 < l.length
    · rw [dif_pos h]
      obtain ⟨hc1, hc2, hc3, hc4, _⟩ := siftupChildIdx_spec l pos h
      have hr := ih (l.set pos (l.getD (siftupChildIdx l pos) dflt))
        (siftupChildIdx l pos)
        (by simp only [List.length_set]; omega)
        (by simp only [List.length_set]; omega)
      simp only [List.length_set] at hr
      exact ⟨hr.1, by omega, hr.2.2.1, hr.2.2.2⟩
    · rw [dif_neg h]
      exact ⟨rfl, le_refl _, hp, by omega⟩

/-- The descending loop maintains the two hole invariants. -/
theorem siftupLoop_inv :
    ∀ (fuel : ℕ) (l : List Entry) (pos : ℕ),
      l.length - pos ≤ fuel → pos < l.length →
      edgesExcept l pos → childrenGeGrand l pos →
      edgesExcept (siftupLoop l pos).1 (siftupLoop l pos).2
      ∧ childrenGeGrand (siftupLoop l pos).1 (siftupLoop l pos).2 := by
  intro fuel
  induction fuel with
  | zero =>
    intro l pos hf hp
    exact absurd hp (by omega)
  | succ fuel ih =>
    intro l pos hf hp h1 h3
    rw [siftupLoop]
    by_cases h : 2 * pos + 1 < l.length
    · rw [dif_pos h]
      obtain ⟨hc1, hc2, hc3, hc4, hmin⟩ := siftupChildIdx_spec l pos h
      apply ih
      · simp only [List.length_set]; omega
      · simp only [List.length_set]; omega
      · -- edgesExcept after the chosen child's value moves up into the hole
        intro j hj0 hjlen hjne hjpar
        simp only [List.length_set] at hjlen
        by_cases hjpos : j = pos
        · subst hjpos
          have hp0 : 0 < j := hj0
          have hppne : (j - 1) / 2 ≠ j := by omega
          rw [keyAt_set_ne l j _ _ hppne, keyAt_set_eq l j _ hp]
          exact h3 hj0 (siftupChildIdx l j) (by omega) hc3 hc4
        · by_cases hjchild : (j - 1) / 2 = pos
          · rw [hjchild, keyAt_set_eq l pos _ hp, keyAt_set_ne l pos j _ hjpos]
            exact hmin j hj0 hjlen hjchild
          · rw [keyAt_set_ne l pos j _ hjpos, keyAt_set_ne l pos _ _ hjchild]
            exact h1 j hj0 hjlen hjpos hjchild
      · -- grandchildren of the hole dominate the moved child value
        intro hc0 j hj0 hjlen hjpar
        simp only [List.length_set] at hjlen
        rw [hc4]
        have hjpos : j ≠ pos := by omega
        rw [keyAt_set_eq l pos _ hp, keyAt_set_ne l pos j _ hjpos]
        have h4 := h1 j hj0 hjlen hjpos (by omega)
        rw [hjpar] at h4
        exact h4
    · rw [dif_neg h]
      exact ⟨h1, h3⟩

/-- `_siftup(heap, 0)` restores the heap property from the hole-at-root
invariant. -/
theorem siftup0_heapProp (l : List Entry) (h0 : 0 < l.length)
    (h1 : edgesExcept l 0) : heapProp (siftup l 0) := by
  have h3 : childrenGeGrand l 0 := fun hc => absurd hc (lt_irrefl 0)
  obtain ⟨he, hg⟩ := siftupLoop_inv l.length l 0 (by omega) h0 h1 h3
  obtain ⟨hlen, _, hplt, hleaf⟩ := siftupLoop_basic l.length l 0 (by omega) h0
  unfold siftup
  apply siftdownLoop_heapProp (siftupLoop l 0).2 (siftupLoop l 0).1 (l.getD 0 dflt)
  · rw [hlen]; exact hplt
  · exact he
  · intro j hj0 hjlen hjchild
    rw [hlen] at hjlen
    omega
  · exact hg

/-- Writing any value into the final hole permutes to writing it at the
initial hole. -/
theorem siftupLoop_setPerm :
    ∀ (fuel : ℕ) (l : List Entry) (pos : ℕ),
      l.length - pos ≤ fuel → pos < l.length → ∀ (x : Entry),
      (((siftupLoop l pos).1.set (siftupLoop l pos).2 x)).Perm (l.set pos x) := by
  intro fuel
  induction fuel with
  | zero =>
    intro l pos hf hp
    exact absurd hp (by omega)
  | succ fuel ih =>
    intro l pos hf hp x
    rw [siftupLoop]
    by_cases h : 2 * pos + 1 < l.length
    · rw [dif_pos h]
      obtain ⟨hc1, hc2, hc3, hc4, _⟩ := siftupChildIdx_spec l pos h
      have hr := ih (l.set pos (l.getD (siftupChildIdx l pos) dflt))
        (siftupChildIdx l pos)
        (by simp only [List.length_set]; omega)
        (by simp only [List.length_set]; omega) x
      exact hr.trans (set_set_perm l pos (siftupChildIdx l pos) (by omega) hp hc3 x)
    · rw [dif_neg h]

/-- Writing back the value already stored at an index is the identity. -/
theorem set_getD_self :
    ∀ (l : List Entry) (i : ℕ), i < l.length → l.set i (l.getD i dflt) = l := by
  intro l
  induction l with
  | nil => intro i hi; simp at hi
  | cons a t ih =>
    intro i hi
    match i with
    | 0 => simp
    | (k + 1) =>
      simp only [List.getD_cons_succ, List.set_cons_succ]
      rw [ih k (by simpa using hi)]

/-- `_siftup(heap, 0)` is a permutation of the heap. -/
theorem siftup0_perm (l : List Entry) (h0 : 0 < l.length) :
    (siftup l 0).Perm l := by
  obtain ⟨hlen, _, hplt, _⟩ := siftupLoop_basic l.length l 0 (by omega) h0
  unfold siftup
  have h1 := siftdownLoop_perm (siftupLoop l 0).2 (siftupLoop l 0).1 0
    (l.getD 0 dflt) (by rw [hlen]; exact hplt)
  have h2 := siftupLoop_setPerm l.length l 0 (by omega) h0 (l.getD 0 dflt)
  rw [set_getD_self l 0 h0] at h2
  exact h1.trans h2

/-- Keys of the prefix survive `dropLast`. -/
theorem keyAt_dropLast (l : List Entry) (i : ℕ) (h : i + 1 < l.length) :
    keyAt l.dropLast i = keyAt l i := by
  rw [keyAt, keyAt, List.getD_eq_getElem l.dropLast dflt
    (by simp only [List.length_dropLast]; omega),
    List.getD_eq_getElem l dflt (by omega), List.getElem_dropLast]

/-- The head of a nonempty list is a member. -/
theorem getD_zero_mem (l : List Entry) (h : l ≠ []) : l.getD 0 dflt ∈ l := by
  match l with
  | [] => exact absurd rfl h
  | a :: t => simp

/-- Full specification of `heappop` on a nonempty heap: it returns the
minimal entry, the remainder is a heap, and nothing else changes. -/
theorem heappop_spec (heap : List Entry) (hp : heapProp heap)
    (hne : heap ≠ []) :
    ∃ ret rest, heappop heap = some (ret, rest)
      ∧ heap.Perm (ret :: rest)
      ∧ heapProp rest
      ∧ (∀ y ∈ heap, ret.1 ≤ y.1)
      ∧ rest.length + 1 = heap.length := by
  match heap with
  | [] => exact absurd rfl hne
  | [x] =>
    refine ⟨x, [], rfl, List.Perm.refl _, ?_, ?_, rfl⟩
    · intro j hj0 hjlen; simp at hjlen
    · intro y hy; simp at hy; subst hy; exact le_refl _
  | x :: y :: ys =>
    have hl0len : ((x :: y :: ys).dropLast.set 0
        ((x :: y :: ys).getLastD dflt)).length
        = (x :: y :: ys).length - 1 := by
      simp [List.length_dropLast]
    have h0 : 0 < ((x :: y :: ys).dropLast.set 0
        ((x :: y :: ys).getLastD dflt)).length := by
      rw [hl0len]
      simp only [List.length_cons]
      omega
    have hedges : edgesExcept ((x :: y :: ys).dropLast.set 0
        ((x :: y :: ys).getLastD dflt)) 0 := by
      intro j hj0 hjlen hjne hjpar
      rw [hl0len] at hjlen
      simp only [List.length_cons] at hjlen
      rw [keyAt_set_ne _ 0 j _ (by omega), keyAt_set_ne _ 0 _ _ hjpar,
        keyAt_dropLast _ j (by simp only [List.length_cons]; omega),
        keyAt_dropLast _ _ (by simp only [List.length_cons]; omega)]
      exact hp j hj0 (by simp only [List.length_cons]; omega)
    refine ⟨x, _, rfl, ?_, siftup0_heapProp _ h0 hedges, ?_, ?_⟩
    · -- permutation: heap ~ root :: sifted remainder
      have hsp := (siftup0_perm _ h0).symm
      set lv := (x :: y :: ys).getLastD dflt with hlv
      have hset : (x :: y :: ys).dropLast.set 0 lv
          = lv :: (y :: ys).dropLast := rfl
      have hstep1 : (x :: y :: ys) = x :: ((y :: ys).dropLast ++ [lv]) := by
        have h5 := List.dropLast_append_getLast (List.cons_ne_nil x (y :: ys))
        have h6 : (x :: y :: ys).getLast (List.cons_ne_nil x (y :: ys)) = lv := by
          rw [hlv]; exact rfl
        rw [h6] at h5
        exact h5.symm
      have hperm1 : ((y :: ys).dropLast ++ [lv]).Perm
          (lv :: (y :: ys).dropLast) := List.perm_append_comm
      rw [hset] at hsp
      rw [hset, hstep1]
      exact (hperm1.cons x).trans (hsp.cons x)
    · -- the returned root is minimal
      intro z hz
      have h1 := heapProp_root_le_mem (x :: y :: ys) hp z hz
      simpa [keyAt] using h1
    · -- length bookkeeping
      have h2 := (siftup0_perm _ h0).length_eq
      rw [hl0len] at h2
      rw [h2]
      simp

/-- Embeds the atomic scan-and-pop loop of
`AccountSelector.get_ready_accounts` (account_selector.py lines
273-293): while the heap is nonempty, fewer than `max_count` entries
are collected, and the root is due (`next_fetch_at ≤ now`), pop the
root into the result; stop at the first future root.  Returns
(collected entries, remaining heap). -/
def popReadyAux : List Entry → ℚ → ℕ → List Entry × List Entry
  | heap, _, 0 => ([], heap)
  | heap, now, (r + 1) =>
    if heap = [] then ([], heap)
    else if (heap.getD 0 dflt).1 ≤ now then
      match heappop heap with
      | none => ([], heap)
      | some (ret, rest) =>
        ((ret :: (popReadyAux rest now r).1), (popReadyAux rest now r).2)
    else ([], heap)

/-- Full specification of the scan-and-pop loop on a well-formed heap. -/
theorem popReady_props (now : ℚ) :
    ∀ (k : ℕ) (heap : List Entry), heapProp heap →
      (popReadyAux heap now k).1.length
          = min k (heap.countP (fun e => decide (e.1 ≤ now)))
      ∧ (∀ e ∈ (popReadyAux heap now k).1, e.1 ≤ now)
      ∧ heap.Perm ((popReadyAux heap now k).1 ++ (popReadyAux heap now k).2)
      ∧ (∀ e ∈ (popReadyAux heap now k).1,
          ∀ f ∈ (popReadyAux heap now k).2, e.1 ≤ f.1)
      ∧ heapProp (popReadyAux heap now k).2 := by
  intro k
  induction k with
  | zero =>
    intro heap hp
    refine ⟨by simp [popReadyAux], by simp [popReadyAux],
      by simp [popReadyAux], by simp [popReadyAux], hp⟩
  | succ r ih =>
    intro heap hp
    by_cases h : heap = []
    · subst h
      refine ⟨by simp [popReadyAux], by simp [popReadyAux],
        by simp [popReadyAux], by simp [popReadyAux], by simp [popReadyAux, hp]⟩
    · by_cases htop : (heap.getD 0 dflt).1 ≤ now
      · obtain ⟨ret, rest, hpop, hperm, hrest, hmin, hlen⟩ :=
          heappop_spec heap hp h
        have hretnow : ret.1 ≤ now :=
          le_trans (hmin (heap.getD 0 dflt) (getD_zero_mem heap h)) htop
        have hunfold : popReadyAux heap now (r + 1)
            = ((ret :: (popReadyAux rest now r).1),
                (popReadyAux rest now r).2) := by
          show (if heap = [] then ([], heap)
            else if (heap.getD 0 dflt).1 ≤ now then
              match heappop heap with
              | none => ([], heap)
              | some (ret, rest) =>
                ((ret :: (popReadyAux rest now r).1), (popReadyAux rest now r).2)
            else ([], heap)) = _
          rw [if_neg h, if_pos htop, hpop]
        obtain ⟨ihlen, ihready, ihperm, ihmin, ihheap⟩ := ih rest hrest
        rw [hunfold]
        have hcount : heap.countP (fun e => decide (e.1 ≤ now))
            = rest.countP (fun e => decide (e.1 ≤ now)) + 1 := by
          rw [hperm.countP_eq]
          simp [List.countP_cons, hretnow]
        refine ⟨?_, ?_, ?_, ?_, ihheap⟩
        · simp only [List.length_cons, ihlen, hcount]
          omega
        · intro e he
          rcases List.mem_cons.mp he with he | he
          · subst he; exact hretnow
          · exact ihready e he
        · exact hperm.trans (ihperm.cons ret)
        · intro e he f hf
          rcases List.mem_cons.mp he with he | he
          · subst he
            have hfrest : f ∈ rest :=
              ihperm.symm.subset (List.mem_append_right _ hf)
            exact hmin f (hperm.symm.subset (List.mem_cons_of_mem _ hfrest))
          · exact ihmin e he f hf
      · have hcount : heap.countP (fun e => decide (e.1 ≤ now)) = 0 := by
          rw [List.countP_eq_zero]
          intro e he
          have h1 := heapProp_root_le_mem heap hp e he
          have h2 : ¬ e.1 ≤ now := by
            intro h3
            exact htop (le_trans h1 h3)
          simpa using h2
        have hunfold : popReadyAux heap now (r + 1) = ([], heap) := by
          show (if heap = [] then ([], heap)
            else if (heap.getD 0 dflt).1 ≤ now then
              match heappop heap with
              | none => ([], heap)
              | some (ret, rest) =>
                ((ret :: (popReadyAux rest now r).1), (popReadyAux rest now r).2)
            else ([], heap)) = _
          rw [if_neg h, if_neg htop]
        rw [hunfold, hcount]
        refine ⟨by simp, by simp, by simp, by simp, hp⟩

/-- The operations the scheduler performs on a region queue:
`add_account` (skipped when the puuid is already indexed, otherwise
pushed due immediately), `reschedule` (always pushed back with its new
`next_fetch_at`), and the `get_ready_accounts` scan-and-pop. -/
inductive SelectorOp where
  | addAccount (puuid : ℕ) (now : ℚ)
  | reschedule (puuid : ℕ) (next_fetch_at : ℚ)
  | popReady (now : ℚ) (max_count : ℕ)

/-- A region queue together with the puuid index. -/
structure SelectorState where
  heap : List Entry
  index : List ℕ

/-- One step of the selector on a region queue, from
`AccountSelector.add_account` (heappush at lines 236-238, after the
dedup check at line 197), `AccountSelector.reschedule` (heappush at
lines 359-363) and `AccountSelector.get_ready_accounts`. -/
def applyOp (s : SelectorState) : SelectorOp → SelectorState
  | .addAccount p now =>
    if p ∈ s.index then s
    else ⟨heappush s.heap (now, p), p :: s.index⟩
  | .reschedule p next =>
    ⟨heappush s.heap (next, p),
      if p ∈ s.index then s.index else p :: s.index⟩
  | .popReady now k => ⟨(popReadyAux s.heap now k).2, s.index⟩

/-- Running a sequence of selector operations from the empty queue. -/
def runOps (ops : List SelectorOp) : SelectorState :=
  ops.foldl applyOp ⟨[], []⟩

/-- Each operation preserves the heap property. -/
theorem applyOp_heapProp (s : SelectorState) (op : SelectorOp)
    (hp : heapProp s.heap) : heapProp (applyOp s op).heap := by
  match op with
  | .addAccount p now =>
    by_cases h : p ∈ s.index
    · simpa [applyOp, h] using hp
    · simpa [applyOp, h] using heappush_heapProp s.heap (now, p) hp
  | .reschedule p next =>
    simpa [applyOp] using heappush_heapProp s.heap (next, p) hp
  | .popReady now k =>
    exact (popReady_props now k s.heap hp).2.2.2.2

/-- Any operation sequence leaves a well-formed heap. -/
theorem runOps_heapProp (ops : List SelectorOp) : heapProp (runOps ops).heap := by
  have hgen : ∀ (l : List SelectorOp) (s : SelectorState), heapProp s.heap →
      heapProp (l.foldl applyOp s).heap := by
    intro l
    induction l with
    | nil => intro s hp; exact hp
    | cons op rest ih =>
      intro s hp
      exact ih (applyOp s op) (applyOp_heapProp s op hp)
  apply hgen
  intro j hj0 hjlen
  simp at hjlen

/-! ## Theorems: batch extraction (C8) and the heap invariant (C9) -/

/-- C8: on a well-formed region queue, one pop_ready call returns
exactly min(max_count, number of due entries) entries; they are the
entries with the smallest next_fetch_at values, all due
(next_fetch_at ≤ now); they are removed from the heap (the heap splits,
as a multiset, into the returned batch and the remainder), every entry
with next_fetch_at > now remains in the heap, and the remainder is
still a heap. -/
theorem claim_C8_pop_ready :
    ∀ (heap : List Entry) (now : ℚ) (max_count : ℕ), heapProp heap →
      (popReadyAux heap now max_count).1.length
          = min max_count (heap.countP (fun e => decide (e.1 ≤ now)))
      ∧ (∀ e ∈ (popReadyAux heap now max_count).1, e.1 ≤ now)
      ∧ heap.Perm ((popReadyAux heap now max_count).1
          ++ (popReadyAux heap now max_count).2)
      ∧ (∀ e ∈ (popReadyAux heap now max_count).1,
          ∀ f ∈ (popReadyAux heap now max_count).2, e.1 ≤ f.1)
      ∧ (∀ f ∈ heap, now < f.1 → f ∈ (popReadyAux heap now max_count).2)
      ∧ heapProp (popReadyAux heap now max_count).2 := by
  intro heap now max_count hp
  obtain ⟨hlen, hready, hperm, hmin, hheap⟩ := popReady_props now max_count heap hp
  refine ⟨hlen, hready, hperm, hmin, ?_, hheap⟩
  intro f hf hnow
  rcases List.mem_append.mp (hperm.subset hf) with hf1 | hf1
  · exact absurd (hready f hf1) (not_le_of_gt hnow)
  · exact hf1

/-- Witness for C8 on a one-entry queue whose entry is due. -/
theorem claim_C8_pop_ready_witness :
    (popReadyAux [((0 : ℚ), 7)] 1 3).1.length
        = min 3 (([((0 : ℚ), 7)]).countP (fun e => decide (e.1 ≤ 1)))
    ∧ (∀ e ∈ (popReadyAux [((0 : ℚ), 7)] 1 3).1, e.1 ≤ 1) :=
  ⟨(claim_C8_pop_ready [((0 : ℚ), 7)] 1 3
      (by intro j hj0 hjlen; simp at hjlen; omega)).1,
   (claim_C8_pop_ready [((0 : ℚ), 7)] 1 3
      (by intro j hj0 hjlen; simp at hjlen; omega)).2.1⟩

/-- C9: after any sequence of add, pop_ready, and reschedule
operations, the region queue satisfies the min-heap property on
next_fetch_at: every parent entry's key is at most both its
children's. -/
theorem claim_C9_heap_invariant :
    ∀ (ops : List SelectorOp) (i : ℕ),
      (2 * i + 1 < (runOps ops).heap.length →
        keyAt (runOps ops).heap i ≤ keyAt (runOps ops).heap (2 * i + 1))
      ∧ (2 * i + 2 < (runOps ops).heap.length →
        keyAt (runOps ops).heap i ≤ keyAt (runOps ops).heap (2 * i + 2)) := by
  intro ops i
  have hp := runOps_heapProp ops
  constructor
  · intro h1
    have h2 := hp (2 * i + 1) (by omega) h1
    rwa [show (2 * i + 1 - 1) / 2 = i by omega] at h2
  · intro h1
    have h2 := hp (2 * i + 2) (by omega) h1
    rwa [show (2 * i + 2 - 1) / 2 = i by omega] at h2

/-! ## Sliding-window rate limiter (riot_api.py RateLimiter)

`acquire` is embedded with idealized time: the caller passes the clock
value `now` it observes, `asyncio.sleep(d)` advances the clock by
exactly `d`, and the recorded timestamp is the clock value after the
sleeps.  The deques are lists oldest-first with the `maxlen = 2·limit`
drop-from-the-left behaviour of `collections.deque`. -/

/-- The two deques of `RateLimiter` (riot_api.py lines 65-70). -/
structure RLState where
  short_window : List ℚ
  long_window : List ℚ

/-- A freshly constructed limiter. -/
def RLState.empty : RLState := ⟨[], []⟩

/-- The cleanup loops `while window and window[0] < cutoff: popleft()`
(riot_api.py lines 78-81). -/
def dropOld : List ℚ → ℚ → List ℚ
  | [], _ => []
  | t :: rest, cutoff => if t < cutoff then dropOld rest cutoff else t :: rest

/-- `deque.append` under `maxlen = m`: drop the leftmost element when
full; a `maxlen = 0` deque stays empty. -/
def appendMax (w : List ℚ) (m : ℕ) (t : ℚ) : List ℚ :=
  if m = 0 then w
  else if w.length < m then w ++ [t] else w.tail ++ [t]

/-- The short-window wait (riot_api.py lines 84-89): when the cleaned
short window is at capacity, sleep `1 - (now - oldest)` if positive and
re-read the clock. -/
def shortAdvance (S : ℕ) (sw : List ℚ) (now : ℚ) : ℚ :=
  if S ≤ sw.length then
    let wait := 1 - (now - sw.headD 0)
    if 0 < wait then now + wait else now
  else now

/-- The long-window wait (riot_api.py lines 92-97), applied to the
clock value left by the short-window wait. -/
def longAdvance (L : ℕ) (lw : List ℚ) (n1 : ℚ) : ℚ :=
  if L ≤ lw.length then
    let wait := 120 - (n1 - lw.headD 0)
    if 0 < wait then n1 + wait else n1
  else n1

/-- Embeds one `RateLimiter.acquire` call (riot_api.py lines 72-101)
under idealized time: cleanup both windows against `now`, wait out the
short window (updating the clock), then the long window (updating the
clock again), then record the final clock value in both windows.
Returns (recorded completion time, new state). -/
def acquireStep (S L : ℕ) (st : RLState) (now : ℚ) : ℚ × RLState :=
  let sw := dropOld st.short_window (now - 1)
  let lw := dropOld st.long_window (now - 120)
  let n2 := longAdvance L lw (shortAdvance S sw now)
  (n2, ⟨appendMax sw (2 * S) n2, appendMax lw (2 * L) n2⟩)

/-- Completion times of a sequence of acquire calls, each observing the
clock value listed in `nows`. -/
def runAcquires (S L : ℕ) : RLState → List ℚ → List ℚ
  | _, [] => []
  | st, now :: rest =>
    (acquireStep S L st now).1 ::
      runAcquires S L (acquireStep S L st now).2 rest

/-- Number of completions inside the sliding half-open window
(x, x + h]. -/
def windowCount (ts : List ℚ) (x h : ℚ) : ℕ :=
  ts.countP (fun e => decide (x < e ∧ e ≤ x + h))

/-- Successive acquire calls observe strictly increasing clock values:
each call's `now` lies strictly after the previous call's completion.
This is the real-time behaviour of a monotone clock read after the
previous (lock-serialized) call returned. -/
def strictSeq (S L : ℕ) : RLState → Option ℚ → List ℚ → Prop
  | _, _, [] => True
  | st, lastT, now :: rest =>
    (∀ t0, lastT = some t0 → t0 < now) ∧
    strictSeq S L (acquireStep S L st now).2
      (some (acquireStep S L st now).1) rest

/-- The clock trace of the counterexample: one acquire observing time
0, then two observing time 1 (equal readings of `time.time()` within
the same tick). -/
def ceNows : List ℚ := [0, 1, 1]

/-- Counterexample to C7, on a limiter with S = 1, L = 100: after the
completion at time 0, each acquire observing time 1 finds the entry at
exactly `now - 1` still in the short window (the cleanup keeps it,
`0 < 0` being false), computes `wait = 1 - (1 - 0) = 0`, skips the
sleep (`if wait_time > 0`), and completes at time 1 — so two
completions land in the sliding window (0, 1], exceeding the
short-window limit of 1.  The same scheme overruns the default
S = 20 with twenty time-0 acquires followed by twenty-one time-1
acquires. -/
theorem claim_C7_counterexample :
    runAcquires 1 100 RLState.empty ceNows = [0, 1, 1]
    ∧ windowCount [(0 : ℚ), 1, 1] 0 1 = 2
    ∧ 1 < 2 := by
  have s1 : acquireStep 1 100 RLState.empty 0 = (0, ⟨[0], [0]⟩) := by
    norm_num [acquireStep, shortAdvance, longAdvance, dropOld, appendMax,
      RLState.empty]
  have s2 : acquireStep 1 100 ⟨[0], [0]⟩ 1 = (1, ⟨[0, 1], [0, 1]⟩) := by
    norm_num [acquireStep, shortAdvance, longAdvance, dropOld, appendMax]
  have s3 : acquireStep 1 100 ⟨[0, 1], [0, 1]⟩ 1 = (1, ⟨[1, 1], [0, 1, 1]⟩) := by
    norm_num [acquireStep, shortAdvance, longAdvance, dropOld, appendMax]
  refine ⟨?_, ?_, by norm_num⟩
  · simp only [ceNows, runAcquires, s1, s2, s3]
  · norm_num [windowCount, List.countP_cons]

/-- Cleanup removes a prefix of stale entries, all below the cutoff. -/
theorem dropOld_suffix :
    ∀ (w : List ℚ) (c : ℚ), ∃ p, w = p ++ dropOld w c ∧ ∀ e ∈ p, e < c := by
  intro w
  induction w with
  | nil => intro c; exact ⟨[], rfl, by simp⟩
  | cons t rest ih =>
    intro c
    by_cases h : t < c
    · obtain ⟨p, hp, hpe⟩ := ih c
      refine ⟨t :: p, ?_, ?_⟩
      · have hstep : dropOld (t :: rest) c = dropOld rest c := by
          simp only [dropOld, h, if_true]
        rw [hstep, List.cons_append, ← hp]
      · intro e he
        rcases List.mem_cons.mp he with he | he
        · subst he; exact h
        · exact hpe e he
    · exact ⟨[], by simp [dropOld, h], by simp⟩

/-- The first surviving entry is at or after the cutoff. -/
theorem dropOld_head_ge :
    ∀ (w : List ℚ) (c : ℚ) (w0 : ℚ) (ws : List ℚ),
      dropOld w c = w0 :: ws → c ≤ w0 := by
  intro w
  induction w with
  | nil => intro c w0 ws h; simp [dropOld] at h
  | cons t rest ih =>
    intro c w0 ws h
    by_cases ht : t < c
    · rw [dropOld, if_pos ht] at h
      exact ih c w0 ws h
    · rw [dropOld, if_neg ht] at h
      injection h with h1 _
      subst h1
      exact le_of_not_lt ht

/-- In a strictly sorted list, every element is at most the last. -/
theorem le_getLast_of_sorted :
    ∀ (R : List ℚ), R.Pairwise (· < ·) →
      ∀ e ∈ R, ∀ lst, R.getLast? = some lst → e ≤ lst := by
  intro R
  induction R with
  | nil => intro _ e he; simp at he
  | cons a rest ih =>
    intro hs e he lst hlst
    rcases rest with _ | ⟨b, rest'⟩
    · simp at hlst he
      subst hlst; subst he
      exact le_refl _
    · rw [List.getLast?_cons_cons] at hlst
      rcases List.mem_cons.mp he with he | he
      · subst he
        have hlmem : lst ∈ b :: rest' := List.mem_of_mem_getLast? hlst
        have := (List.pairwise_cons.mp hs).1 lst hlmem
        exact le_of_lt this
      · exact ih (List.pairwise_cons.mp hs).2 e he lst hlst

/-- In a strictly sorted nonempty list, the head is minimal. -/
theorem head_le_of_sorted (w0 : ℚ) (ws : List ℚ)
    (hs : (w0 :: ws).Pairwise (· < ·)) :
    ∀ e ∈ w0 :: ws, w0 ≤ e := by
  intro e he
  rcases List.mem_cons.mp he with he | he
  · subst he; exact le_refl _
  · exact le_of_lt ((List.pairwise_cons.mp hs).1 e he)

/-- One new completion keeps the sliding-window bound of one window,
and the surviving deque content never exceeds the limit. -/
theorem window_step (h : ℚ) (m : ℕ)
    (R p w : List ℚ) (now t : ℚ)
    (hsplit : R = p ++ w)
    (hpold : ∀ e ∈ p, e < now - h)
    (hwge : ∀ e ∈ w, now - h ≤ e)
    (hsorted : R.Pairwise (· < ·))
    (hlt : ∀ e ∈ R, e < now)
    (hwin : ∀ x, windowCount R x h ≤ m)
    (htnow : now ≤ t)
    (hfull : m ≤ w.length → ∃ w0 ws, w = w0 :: ws ∧ w0 + h ≤ t) :
    (∀ x, windowCount (R ++ [t]) x h ≤ m) ∧ w.length ≤ m := by
  have hwlen : w.length ≤ m := by
    rcases hw : w with _ | ⟨w0, ws⟩
    · simp
    · subst hw
      have hRne : R ≠ [] := by rw [hsplit]; simp
      obtain ⟨lst, hlst⟩ :=
        Option.isSome_iff_exists.mp (List.getLast?_isSome.mpr hRne)
      have hlstmem : lst ∈ R := List.mem_of_mem_getLast? hlst
      have hlstlt : lst < now := hlt lst hlstmem
      have hall : ∀ e ∈ w0 :: ws,
          (fun e => decide (lst - h < e ∧ e ≤ lst - h + h)) e = true := by
        intro e he
        have h1 : now - h ≤ e := hwge e he
        have h2 : e ≤ lst :=
          le_getLast_of_sorted R hsorted e
            (by rw [hsplit]; exact List.mem_append_right p he) lst hlst
        simp only [decide_eq_true_eq]
        exact ⟨by linarith, by linarith⟩
      have h3 : windowCount (w0 :: ws) (lst - h) h = (w0 :: ws).length :=
        List.countP_eq_length.mpr hall
      have h4 : windowCount (w0 :: ws) (lst - h) h
          ≤ windowCount R (lst - h) h := by
        rw [hsplit, windowCount, windowCount, List.countP_append]
        omega
      have h5 := hwin (lst - h)
      omega
  refine ⟨?_, hwlen⟩
  intro x
  rw [windowCount, List.countP_append]
  by_cases hmem : x < t ∧ t ≤ x + h
  · have hcnt1 : List.countP (fun e => decide (x < e ∧ e ≤ x + h)) [t] = 1 := by
      simp [hmem.1, hmem.2]
    rw [hcnt1]
    have hsub : windowCount R x h
        ≤ R.countP (fun e => decide (t - h < e)) := by
      apply List.countP_mono_left
      intro a _ ha
      simp only [decide_eq_true_eq] at ha ⊢
      have := hmem.2
      linarith [ha.1]
    have hbound : R.countP (fun e => decide (t - h < e)) + 1 ≤ m := by
      rw [hsplit, List.countP_append]
      have hp0 : List.countP (fun e => decide (t - h < e)) p = 0 := by
        rw [List.countP_eq_zero]
        intro e he
        simp only [decide_eq_true_eq, not_lt]
        have := hpold e he
        linarith
      rw [hp0]
      by_cases hwm : m ≤ w.length
      · obtain ⟨w0, ws, hw, hw0⟩ := hfull hwm
        have hw0n : List.countP (fun e => decide (t - h < e)) w
            = List.countP (fun e => decide (t - h < e)) ws := by
          rw [hw, List.countP_cons]
          have : ¬ (t - h < w0) := by linarith
          simp [this]
        have hws : List.countP (fun e => decide (t - h < e)) ws ≤ ws.length :=
          List.countP_le_length _
        have hwl : w.length = ws.length + 1 := by rw [hw]; simp
        omega
      · have hcw : List.countP (fun e => decide (t - h < e)) w ≤ w.length :=
          List.countP_le_length _
        omega
    rw [windowCount] at hsub
    omega
  · have hcnt0 : List.countP (fun e => decide (x < e ∧ e ≤ x + h)) [t] = 0 := by
      simp only [List.countP_cons, List.countP_nil]
      simp [hmem]
    rw [hcnt0]
    have hwx := hwin x
    rw [windowCount] at hwx
    omega

/-- Invariant tying the full completion history `R` to the limiter
state: completions strictly increase, each deque is a suffix of the
history whose evicted prefix is stale relative to the newest completion,
and both sliding-window bounds hold on the whole history. -/
structure RLInv (S L : ℕ) (R : List ℚ) (st : RLState) : Prop where
  sorted : R.Pairwise (· < ·)
  shortSuf : ∃ p, R = p ++ st.short_window ∧
    ∀ e ∈ p, ∀ t0, R.getLast? = some t0 → e < t0 - 1
  longSuf : ∃ p, R = p ++ st.long_window ∧
    ∀ e ∈ p, ∀ t0, R.getLast? = some t0 → e < t0 - 120
  shortWin : ∀ x, windowCount R x 1 ≤ S
  longWin : ∀ x, windowCount R x 120 ≤ L

/-- The short wait never moves the clock backwards. -/
theorem shortAdvance_ge (S : ℕ) (sw : List ℚ) (now : ℚ) :
    now ≤ shortAdvance S sw now := by
  unfold shortAdvance
  dsimp only
  split_ifs with h1 h2 <;> linarith

/-- When the short window is at capacity, the clock ends at least one
second after the oldest surviving entry. -/
theorem shortAdvance_full (S : ℕ) (sw : List ℚ) (now : ℚ)
    (h : S ≤ sw.length) (hS : 1 ≤ S) :
    ∃ w0 ws, sw = w0 :: ws ∧ w0 + 1 ≤ shortAdvance S sw now := by
  rcases sw with _ | ⟨w0, ws⟩
  · simp at h; omega
  · refine ⟨w0, ws, rfl, ?_⟩
    unfold shortAdvance
    rw [if_pos h]
    simp only [List.headD_cons]
    split_ifs with h2 <;> linarith

/-- The long wait never moves the clock backwards. -/
theorem longAdvance_ge (L : ℕ) (lw : List ℚ) (n1 : ℚ) :
    n1 ≤ longAdvance L lw n1 := by
  unfold longAdvance
  dsimp only
  split_ifs with h1 h2 <;> linarith

/-- When the long window is at capacity, the clock ends at least 120
seconds after the oldest surviving entry. -/
theorem longAdvance_full (L : ℕ) (lw : List ℚ) (n1 : ℚ)
    (h : L ≤ lw.length) (hL : 1 ≤ L) :
    ∃ v0 vs, lw = v0 :: vs ∧ v0 + 120 ≤ longAdvance L lw n1 := by
  rcases lw with _ | ⟨v0, vs⟩
  · simp at h; omega
  · refine ⟨v0, vs, rfl, ?_⟩
    unfold longAdvance
    rw [if_pos h]
    simp only [List.headD_cons]
    split_ifs with h2 <;> linarith

/-- One acquire call preserves the limiter invariant and completes no
earlier than the clock value it observed. -/
theorem acquireStep_inv (S L : ℕ) (hS : 1 ≤ S) (hL : 1 ≤ L)
    (R : List ℚ) (st : RLState) (inv : RLInv S L R st) (now : ℚ)
    (hnow : ∀ t0, R.getLast? = some t0 → t0 < now) :
    now ≤ (acquireStep S L st now).1
    ∧ RLInv S L (R ++ [(acquireStep S L st now).1])
        (acquireStep S L st now).2 := by
  obtain ⟨hsorted, ⟨p0, hp0, hp0e⟩, ⟨q0, hq0, hq0e⟩, hshortWin, hlongWin⟩ := inv
  obtain ⟨pd, hpd, hpde⟩ := dropOld_suffix st.short_window (now - 1)
  obtain ⟨qd, hqd, hqde⟩ := dropOld_suffix st.long_window (now - 120)
  have hlt : ∀ e ∈ R, e < now := by
    intro e he
    have hRne : R ≠ [] := by
      intro hR; rw [hR] at he; simp at he
    obtain ⟨lst, hlst⟩ :=
      Option.isSome_iff_exists.mp (List.getLast?_isSome.mpr hRne)
    exact lt_of_le_of_lt (le_getLast_of_sorted R hsorted e he lst hlst)
      (hnow lst hlst)
  have hstep : acquireStep S L st now
      = (longAdvance L (dropOld st.long_window (now - 120))
           (shortAdvance S (dropOld st.short_window (now - 1)) now),
         ⟨appendMax (dropOld st.short_window (now - 1)) (2 * S)
            (longAdvance L (dropOld st.long_window (now - 120))
              (shortAdvance S (dropOld st.short_window (now - 1)) now)),
          appendMax (dropOld st.long_window (now - 120)) (2 * L)
            (longAdvance L (dropOld st.long_window (now - 120))
              (shortAdvance S (dropOld st.short_window (now - 1)) now))⟩) := rfl
  set sw := dropOld st.short_window (now - 1) with hswdef
  set lw := dropOld st.long_window (now - 120) with hlwdef
  set t := longAdvance L lw (shortAdvance S sw now) with htdef
  have htnow : now ≤ t :=
    le_trans (shortAdvance_ge S sw now) (longAdvance_ge L lw _)
  have hsplitS : R = (p0 ++ pd) ++ sw := by
    rw [hp0, hpd, List.append_assoc]
  have hsplitL : R = (q0 ++ qd) ++ lw := by
    rw [hq0, hqd, List.append_assoc]
  have hRlast : ∀ e ∈ p0 ++ q0, e < now := by
    intro e he
    apply hlt
    rcases List.mem_append.mp he with he | he
    · rw [hp0]; exact List.mem_append_left _ he
    · rw [hq0]; exact List.mem_append_left _ he
  have hpoldS : ∀ e ∈ p0 ++ pd, e < now - 1 := by
    intro e he
    rcases List.mem_append.mp he with he | he
    · have hRne : R ≠ [] := by
        rw [hp0]
        intro hc
        rw [List.append_eq_nil] at hc
        rw [hc.1] at he
        simp at he
      obtain ⟨lst, hlst⟩ :=
        Option.isSome_iff_exists.mp (List.getLast?_isSome.mpr hRne)
      have h1 := hp0e e he lst hlst
      have h2 := hnow lst hlst
      linarith
    · exact hpde e he
  have hpoldL : ∀ e ∈ q0 ++ qd, e < now - 120 := by
    intro e he
    rcases List.mem_append.mp he with he | he
    · have hRne : R ≠ [] := by
        rw [hq0]
        intro hc
        rw [List.append_eq_nil] at hc
        rw [hc.1] at he
        simp at he
      obtain ⟨lst, hlst⟩ :=
        Option.isSome_iff_exists.mp (List.getLast?_isSome.mpr hRne)
      have h1 := hq0e e he lst hlst
      have h2 := hnow lst hlst
      linarith
    · exact hqde e he
  have hsortS : sw.Pairwise (· < ·) :=
    (List.pairwise_append.mp (hsplitS ▸ hsorted)).2.1
  have hsortL : lw.Pairwise (· < ·) :=
    (List.pairwise_append.mp (hsplitL ▸ hsorted)).2.1
  have hwgeS : ∀ e ∈ sw, now - 1 ≤ e := by
    intro e he
    rcases hswc : sw with _ | ⟨w0, ws⟩
    · rw [hswc] at he; simp at he
    · have hge := dropOld_head_ge st.short_window (now - 1) w0 ws
        (by rw [← hswdef, hswc])
      rw [hswc] at he hsortS
      exact le_trans hge (head_le_of_sorted w0 ws hsortS e he)
  have hwgeL : ∀ e ∈ lw, now - 120 ≤ e := by
    intro e he
    rcases hlwc : lw with _ | ⟨v0, vs⟩
    · rw [hlwc] at he; simp at he
    · have hge := dropOld_head_ge st.long_window (now - 120) v0 vs
        (by rw [← hlwdef, hlwc])
      rw [hlwc] at he hsortL
      exact le_trans hge (head_le_of_sorted v0 vs hsortL e he)
  have hfullS : S ≤ sw.length → ∃ w0 ws, sw = w0 :: ws ∧ w0 + 1 ≤ t := by
    intro hcap
    obtain ⟨w0, ws, hw, hb⟩ := shortAdvance_full S sw now hcap hS
    exact ⟨w0, ws, hw, le_trans hb (longAdvance_ge L lw _)⟩
  have hfullL : L ≤ lw.length → ∃ v0 vs, lw = v0 :: vs ∧ v0 + 120 ≤ t := by
    intro hcap
    exact longAdvance_full L lw (shortAdvance S sw now) hcap hL
  obtain ⟨hwinS, hswlen⟩ := window_step 1 S R (p0 ++ pd) sw now t
    hsplitS hpoldS hwgeS hsorted hlt hshortWin htnow hfullS
  obtain ⟨hwinL, hlwlen⟩ := window_step 120 L R (q0 ++ qd) lw now t
    hsplitL hpoldL hwgeL hsorted hlt hlongWin htnow hfullL
  have hswapp : appendMax sw (2 * S) t = sw ++ [t] := by
    unfold appendMax
    rw [if_neg (by omega : ¬ 2 * S = 0), if_pos (by omega)]
  have hlwapp : appendMax lw (2 * L) t = lw ++ [t] := by
    unfold appendMax
    rw [if_neg (by omega : ¬ 2 * L = 0), if_pos (by omega)]
  rw [hstep]
  refine ⟨htnow, ?_, ?_, ?_, hwinS, hwinL⟩
  · -- completions stay strictly sorted
    rw [List.pairwise_append]
    refine ⟨hsorted, by simp, ?_⟩
    intro a ha b hb
    rw [List.mem_singleton] at hb
    subst hb
    exact lt_of_lt_of_le (hlt a ha) htnow
  · -- short deque is a suffix with a stale evicted prefix
    refine ⟨p0 ++ pd, ?_, ?_⟩
    · show R ++ [t] = (p0 ++ pd) ++ appendMax sw (2 * S) t
      rw [hswapp, hsplitS, List.append_assoc]
    · intro e he t0 ht0
      rw [List.getLast?_concat] at ht0
      injection ht0 with ht0
      subst ht0
      have := hpoldS e he
      linarith
  · -- long deque is a suffix with a stale evicted prefix
    refine ⟨q0 ++ qd, ?_, ?_⟩
    · show R ++ [t] = (q0 ++ qd) ++ appendMax lw (2 * L) t
      rw [hlwapp, hsplitL, List.append_assoc]
    · intro e he t0 ht0
      rw [List.getLast?_concat] at ht0
      injection ht0 with ht0
      subst ht0
      have := hpoldL e he
      linarith

/-- Trace induction: from any invariant-satisfying history, a strictly
sequenced run keeps both sliding-window bounds over the whole extended
history. -/
theorem runAcquires_inv (S L : ℕ) (hS : 1 ≤ S) (hL : 1 ≤ L) :
    ∀ (nows : List ℚ) (R : List ℚ) (st : RLState),
      RLInv S L R st → strictSeq S L st R.getLast? nows →
      (∀ x, windowCount (R ++ runAcquires S L st nows) x 1 ≤ S)
      ∧ (∀ x, windowCount (R ++ runAcquires S L st nows) x 120 ≤ L) := by
  intro nows
  induction nows with
  | nil =>
    intro R st inv _
    constructor
    · intro x
      have h1 : runAcquires S L st [] = [] := rfl
      rw [h1, List.append_nil]
      exact inv.shortWin x
    · intro x
      have h1 : runAcquires S L st [] = [] := rfl
      rw [h1, List.append_nil]
      exact inv.longWin x
  | cons now rest ih =>
    intro R st inv hseq
    obtain ⟨hn, hseq'⟩ := hseq
    obtain ⟨htnow, inv'⟩ := acquireStep_inv S L hS hL R st inv now hn
    have hseq'' : strictSeq S L (acquireStep S L st now).2
        ((R ++ [(acquireStep S L st now).1]).getLast?) rest := by
      rw [List.getLast?_concat]
      exact hseq'
    obtain ⟨ihS, ihL⟩ := ih (R ++ [(acquireStep S L st now).1])
      (acquireStep S L st now).2 inv' hseq''
    have hassoc : R ++ runAcquires S L st (now :: rest)
        = (R ++ [(acquireStep S L st now).1])
            ++ runAcquires S L (acquireStep S L st now).2 rest := by
      have h1 : runAcquires S L st (now :: rest)
          = (acquireStep S L st now).1
              :: runAcquires S L (acquireStep S L st now).2 rest := rfl
      rw [h1, List.append_assoc]
      rfl
    rw [hassoc]
    exact ⟨ihS, ihL⟩

/-- C7 amended: on a rate limiter with limits S ≥ 1 per 1-second
window and L ≥ 1 per 120-second window, for every acquire sequence
whose calls observe strictly increasing clock values (each call's clock
reading strictly after the previous call's completion), every sliding
half-open window (x, x + 1] contains at most S completions and every
(x, x + 120] at most L.  Without the strictly-increasing-clock premise
the bound fails (see the counterexample: equal clock readings let an
entry at exactly `now - 1` survive the cleanup and the zero wait is
skipped). -/
theorem claim_C7_rate_limiter (S L : ℕ) (hS : 1 ≤ S) (hL : 1 ≤ L)
    (nows : List ℚ) (hseq : strictSeq S L RLState.empty none nows) (x : ℚ) :
    windowCount (runAcquires S L RLState.empty nows) x 1 ≤ S
    ∧ windowCount (runAcquires S L RLState.empty nows) x 120 ≤ L := by
  have hinv : RLInv S L [] RLState.empty :=
    ⟨by simp, ⟨[], rfl, by simp⟩, ⟨[], rfl, by simp⟩,
      fun x => by simp [windowCount], fun x => by simp [windowCount]⟩
  have hseq0 : strictSeq S L RLState.empty (([] : List ℚ).getLast?) nows := by
    exact hseq
  obtain ⟨h1, h2⟩ := runAcquires_inv S L hS hL nows [] RLState.empty hinv hseq0
  have h3 := h1 x
  have h4 := h2 x
  rw [List.nil_append] at h3 h4
  exact ⟨h3, h4⟩

/-- Witness for C7 amended on a two-call strictly increasing trace with
the default limits. -/
theorem claim_C7_rate_limiter_witness :
    windowCount (runAcquires 20 100 RLState.empty [0, 2]) 0 1 ≤ 20
    ∧ windowCount (runAcquires 20 100 RLState.empty [0, 2]) 0 120 ≤ 100 := by
  have hs : (acquireStep 20 100 RLState.empty 0).1 = 0 := by
    norm_num [acquireStep, shortAdvance, longAdvance, dropOld, RLState.empty]
  have hseq : strictSeq 20 100 RLState.empty none [0, 2] := by
    refine ⟨?_, ?_, trivial⟩
    · intro t0 h; cases h
    · intro t0 h
      injection h with he
      subst he
      rw [hs]
      norm_num
  exact claim_C7_rate_limiter 20 100 (by norm_num) (by norm_num) [0, 2] hseq 0

end EsportsTracker
